import Mathlib

/-!
Verification of the any-api LLM gateway core against its specification.

The Python sources are shallowly embedded: each service method that the
claims mention is translated into an executable Lean function over explicit
state, and the claims are settled as theorems about those functions.
-/

namespace AnyApi

/-- State of an `OfficialKey` row (src/app/models/key.py, class OfficialKey),
restricted to the statistics and status fields that the dispatch path
mutates.  `total_tokens` appears only in the pydantic response schema
(src/app/schemas/key.py); the two `update_key_status` services read and
write it as a dynamic attribute, so it is carried here as a plain field. -/
structure OKey where
  id : Nat
  key : String
  usage_count : Nat
  error_count : Nat
  input_tokens : Nat
  output_tokens : Nat
  total_tokens : Nat
  last_status : String
  last_status_code : Option Int
  is_active : Bool
  deriving Repr, DecidableEq, Inhabited

/-- `GeminiService.update_key_status` (src/app/services/gemini_service.py,
lines 148-178) restricted to the key row it mutates; the body is identical
in `ClaudeService.update_key_status` (src/app/services/claude_service.py,
lines 131-150). -/
def updateKeyStatus (k : OKey) (status_code : Int)
    (input_tokens output_tokens : Nat) : OKey :=
  let k := { k with last_status_code := some status_code,
                    usage_count := k.usage_count + 1 }
  if 200 ≤ status_code ∧ status_code < 300 then
    { k with total_tokens := k.total_tokens + input_tokens + output_tokens,
             error_count := 0,
             last_status := toString status_code }
  else
    let ec := k.error_count + 1
    if ec ≥ 3 then
      { k with error_count := ec, is_active := false,
               last_status := "auto_disabled" }
    else
      { k with error_count := ec, last_status := toString status_code }

/-- The `OfficialKey` mutation performed by `ChatProcessor._finalize_log`
(src/app/services/chat_processor.py, lines 332-366): statistics always
accumulate; on a non-2xx numeric status the error count is incremented and
`last_status` records the status, on a 2xx `last_status` becomes
`"active"`.  (`numeric_status_code` falls back to 500 when the status is
not numeric; callers in this model always pass an integer.) -/
def finalizeKeyUpdate (k : OKey) (status_code : Int)
    (log_input_tokens output_tokens : Nat) : OKey :=
  let k := { k with usage_count := k.usage_count + 1,
                    input_tokens := k.input_tokens + log_input_tokens,
                    output_tokens := k.output_tokens + output_tokens,
                    last_status_code := some status_code }
  if 200 ≤ status_code ∧ status_code < 300 then
    { k with last_status := "active" }
  else
    { k with error_count := k.error_count + 1,
             last_status := toString status_code }

/-- Failure modes of key selection (the two `HTTPException(503, ...)`
raises in the selection services). -/
inductive SelErr where
  | noKeys
  | allDisabled
  deriving Repr, DecidableEq

/-- `GeminiService.get_next_key` (src/app/services/gemini_service.py,
lines 60-111), restricted to one channel: `keys` is the channel's key
list ordered by id, `cursor` is `SystemConfig.last_used_official_key_id`.
Returns the selected key and the updated cursor; `none` models the
503 "no keys configured" raise.  Python's `if last_key_id:` treats both
`None` and `0` as absent, and `next(i for i, key in enumerate(keys) if
key.id == last_key_id)` is the first index holding the cursor id. -/
def getNextKey (keys : List OKey) (cursor : Option Nat) :
    Option (OKey × Nat) :=
  match keys with
  | [] => none
  | k0 :: _ =>
    let chosen :=
      match cursor with
      | none => k0
      | some c =>
        if c = 0 then k0
        else
          match keys.findIdx? (fun k => k.id == c) with
          | some i => keys.getD ((i + 1) % keys.length) k0
          | none => k0
    some (chosen, chosen.id)

/-- The `for _ in range(len(all_keys))` loop of
`GeminiService.get_active_key` (src/app/services/gemini_service.py,
lines 131-136): draw the next key from the rotation and return it if it
is active, else keep drawing. -/
def getActiveKeyLoop (keys : List OKey) :
    Nat → Option Nat → Except SelErr (OKey × Nat)
  | 0, _ => .error .allDisabled
  | fuel + 1, cursor =>
    match getNextKey keys cursor with
    | none => .error .noKeys
    | some (k, c') =>
      if k.is_active then .ok (k, c')
      else getActiveKeyLoop keys fuel (some c')

/-- `GeminiService.get_active_key` (src/app/services/gemini_service.py,
lines 113-139): 503 "no keys configured" on an empty pool, otherwise at
most `len(all_keys)` rotation draws, 503 "all keys disabled" when none
of them yields an active key. -/
def getActiveKey (keys : List OKey) (cursor : Option Nat) :
    Except SelErr (OKey × Nat) :=
  if keys.isEmpty then .error .noKeys
  else getActiveKeyLoop keys keys.length cursor

/-- `ClaudeService.get_active_key_str` (src/app/services/claude_service.py,
lines 102-129): 503 when the pool is empty, 503 when no key is active,
then returns `(await self.get_next_key(db, channel_id)).key` — a single
rotation draw whose result is NOT checked for activity. -/
def claudeGetActiveKeyStr (keys : List OKey) (cursor : Option Nat) :
    Except SelErr (String × Nat) :=
  if keys.isEmpty then .error .noKeys
  else if (keys.filter (fun k => k.is_active)).isEmpty then .error .allDisabled
  else
    match getNextKey keys cursor with
    | none => .error .noKeys
    | some (k, c') => .ok (k.key, c')


/-- Whether the key at cyclic position `q` of the rotation order is
active (positions are taken modulo the pool size). -/
def activeAt (keys : List OKey) (q : Nat) : Bool :=
  (keys.getD (q % keys.length) default).is_active

/-- The number of active keys in the pool. -/
def activeCount (keys : List OKey) : Nat :=
  (keys.filter (fun k => k.is_active)).length

/-- Search for the first cyclic position strictly after `p` holding an
active key, scanning at most `fuel` steps. -/
def firstHit (keys : List OKey) : Nat → Nat → Option Nat
  | p, 0 => none
  | p, fuel + 1 =>
    if activeAt keys (p + 1) then some (p + 1)
    else firstHit keys (p + 1) fuel

/-- The first active position strictly after `p`; one full cycle always
suffices when some key is active. -/
def nextPos (keys : List OKey) (p : Nat) : Nat :=
  (firstHit keys p keys.length).getD (p + 1)

/-- Iterated `nextPos`. -/
def nextPosIter (keys : List OKey) (p0 : Nat) : Nat → Nat
  | 0 => p0
  | t + 1 => nextPos keys (nextPosIter keys p0 t)

/-- The index in the rotation order that a stored cursor denotes: the
first index holding the cursor id, or (for an absent, zero or unknown
cursor, which `get_next_key` resolves to the first key) the last index,
whose cyclic successor is index 0. -/
def cursorIndex (keys : List OKey) (cursor : Option Nat) : Nat :=
  match cursor with
  | none => keys.length - 1
  | some c =>
    if c = 0 then keys.length - 1
    else
      match keys.findIdx? (fun k => k.id == c) with
      | some i => i
      | none => keys.length - 1

/-- One selection step of the dispatch path: call
`GeminiService.get_active_key` with the current cursor; on success the
cursor advances to the selected key's id. -/
def selStep (keys : List OKey) (st : Option Nat) : Option Nat × Option OKey :=
  match getActiveKey keys st with
  | .ok (k, c) => (some c, some k)
  | .error _ => (st, none)

/-- The cursor state before the t-th selection (state 0 is the initial
`SystemConfig` cursor). -/
def selStateN (keys : List OKey) (c0 : Option Nat) : Nat → Option Nat
  | 0 => c0
  | t + 1 => (selStep keys (selStateN keys c0 t)).1

/-- The key returned by the t-th selection (0-indexed). -/
def selKeyN (keys : List OKey) (c0 : Option Nat) (t : Nat) : Option OKey :=
  (selStep keys (selStateN keys c0 t)).2

/-- How many of the first `n` selections return the key with `b`'s id. -/
def selCount (keys : List OKey) (c0 : Option Nat) (n : Nat) (b : OKey) : Nat :=
  ((Finset.range n).filter
    (fun t => ((selKeyN keys c0 t).any (fun k => k.id == b.id)) = true)).card


/-- The transition a recorded outcome is claimed to perform on a key
(spec §3 invariant 3 and §4.2): any 2xx resets `error_count`, a non-2xx
increments it, and an `error_count` of 3 or more forces the key inactive
with `last_status = "auto_disabled"`. -/
def CircuitBreakerSpec (f : OKey → Int → Nat → Nat → OKey) : Prop :=
  ∀ k s it ot,
    ((200 ≤ s ∧ s < 300) → (f k s it ot).error_count = 0) ∧
    (¬(200 ≤ s ∧ s < 300) → (f k s it ot).error_count = k.error_count + 1) ∧
    (3 ≤ (f k s it ot).error_count →
      (f k s it ot).is_active = false ∧
      (f k s it ot).last_status = "auto_disabled")

/-- Canonical chat-message content: either a plain string, or a complex
(list/dict) value carried as its JSON serialization.  The canonical
schema module (app/schemas/openai.py) is not among the given sources;
modelled from the spec: canonical content is "a string or an ordered
list of parts", and a non-string is exactly what
`_safe_content_to_string` JSON-stringifies. -/
inductive MsgContent where
  | text (s : String)
  | complex (jsonDump : String)
  deriving Repr, DecidableEq, Inhabited

/-- A canonical message (role + content).  Modelled from the spec:
the intermediate form is the OpenAI chat-completion shape. -/
structure ChatMessage where
  role : String
  content : MsgContent
  deriving Repr, DecidableEq, Inhabited

/-- `ChatProcessor._safe_content_to_string` (src/app/services/
chat_processor.py, lines 286-305): a string is returned unchanged, a
dict/list becomes its JSON serialization. -/
def safeContentToString : MsgContent → String
  | .text s => s
  | .complex d => d

/-- One preset item as delivered by `ChatProcessor._load_context`
(src/app/services/chat_processor.py, lines 107-116): the
role/type/content/enabled/order fields of the item dict.  `type` is a
Lean keyword, hence the field name `itemType`; `sort_order` is the
`order` key. -/
structure PItem where
  role : String
  itemType : String
  content : String
  enabled : Bool
  sort_order : Int
  deriving Repr, DecidableEq, Inhabited

/-- The backwards scan of `_apply_preprocessing` (chat_processor.py,
lines 197-203) locating the last message whose role is `user`. -/
def lastUserIdx (messages : List ChatMessage) : Option Nat :=
  (List.range messages.length).reverse.find?
    (fun i => (messages.getD i default).role == "user")

/-- The per-item body of the preset loop in `_apply_preprocessing`
(chat_processor.py, lines 216-262): a disabled item is skipped, `normal`
appends the item's own role/content, `user_input` appends the last user
message (content stringified), `history` appends the stringified
history block, and an unknown type appends nothing. -/
def presetItemStep (lastUser : Option ChatMessage) (history : List ChatMessage)
    (acc : List ChatMessage) (item : PItem) : List ChatMessage :=
  if !item.enabled then acc
  else if item.itemType == "normal" then
    acc ++ [⟨item.role, .text item.content⟩]
  else if item.itemType == "user_input" then
    match lastUser with
    | some mu => acc ++ [⟨mu.role, .text (safeContentToString mu.content)⟩]
    | none => acc
  else if item.itemType == "history" then
    acc ++ history.map (fun h => ⟨h.role, .text (safeContentToString h.content)⟩)
  else acc

/-- The preset stage of `ChatProcessor._apply_preprocessing`
(chat_processor.py, lines 182-277) for a single preset: skipped
entirely when the incoming message list is empty (`if presets and
request.messages:`); otherwise the items are sorted by their `order`
key, the last user message and the history block (messages before it,
or all messages when there is no user message) are extracted, the item
loop builds `processed_messages`, and the result replaces the original
list only when non-empty. -/
def applyPresetItems (items : List PItem) (messages : List ChatMessage) :
    List ChatMessage :=
  if messages.isEmpty then messages
  else
    let sortedItems := items.mergeSort (fun a b => a.sort_order ≤ b.sort_order)
    let lastIdx := lastUserIdx messages
    let lastUser := lastIdx.map (fun i => messages.getD i default)
    let history :=
      match lastIdx with
      | some i => messages.take i
      | none => messages
    let processed := sortedItems.foldl (presetItemStep lastUser history) []
    if processed.isEmpty then messages else processed

/-- The message list that claim C5 (spec §4.5) says an enabled,
sort-ordered preset item list appends: the item's own role/content for
`normal`, the last original user message for `user_input`, and the
original messages preceding that last user message for `history`. -/
def claimC5Appended (items : List PItem) (messages : List ChatMessage) :
    List ChatMessage :=
  (items.filter (fun it => it.enabled)).flatMap (fun it =>
    if it.itemType == "normal" then [⟨it.role, .text it.content⟩]
    else if it.itemType == "user_input" then
      match lastUserIdx messages with
      | some i => [messages.getD i default]
      | none => []
    else if it.itemType == "history" then
      match lastUserIdx messages with
      | some i => messages.take i
      | none => []
    else [])

/-- The message list claim C10 says is appended when the original list
has no user-role message: `history` items append the entire original
list, `user_input` items append nothing. -/
def noUserAppended (items : List PItem) (messages : List ChatMessage) :
    List ChatMessage :=
  (items.filter (fun it => it.enabled)).flatMap (fun it =>
    if it.itemType == "normal" then [⟨it.role, .text it.content⟩]
    else if it.itemType == "user_input" then []
    else if it.itemType == "history" then messages
    else [])


/-- A drawn-in-advance stream of pseudo-random draws standing in for
Python's `random` module (external to the repository); an exhausted
stream yields 0. -/
structure PyRandom where
  vals : List Nat
  deriving Repr, DecidableEq

/-- Draw the next value from the stream. -/
def drawRand (r : PyRandom) : Nat × PyRandom :=
  match r.vals with
  | [] => (0, ⟨[]⟩)
  | v :: rest => (v, ⟨rest⟩)

/-- `random.randint(1, sides)` (callers guarantee `1 ≤ sides`). -/
def randint1 (r : PyRandom) (sides : Nat) : Nat × PyRandom :=
  let (v, r') := drawRand r
  (1 + v % sides, r')

/-- `sum(random.randint(1, sides) for _ in range(count))`. -/
def doRolls (r : PyRandom) : Nat → Nat → Nat × PyRandom
  | 0, _ => (0, r)
  | count + 1, sides =>
    let (v, r') := randint1 r sides
    let (rest, r'') := doRolls r' count sides
    (v + rest, r'')

/-- Python's `\s` character class. -/
def isPySpace (c : Char) : Bool :=
  c = ' ' ∨ c = '\t' ∨ c = '\n' ∨ c = '\r' ∨ c = '\x0b' ∨ c = '\x0c'

/-- `int()` on a digit string. -/
def digitsToNat (ds : List Char) : Nat :=
  ds.foldl (fun n c => n * 10 + (c.toNat - 48)) 0

/-- Case-insensitive prefix test against a lowercase pattern
(`re.IGNORECASE`). -/
def matchCI : List Char → List Char → Bool
  | [], _ => true
  | _ :: _, [] => false
  | p :: ps, c :: cs => (c.toLower = p) && matchCI ps cs

/-- Index of the first occurrence of `stop` in `s` reachable without
crossing a newline: Python's `.` (no DOTALL) cannot match a line
break, so a `(.*?)` group ends at the first `stop` on the same line. -/
def findStopIdx (stop : List Char) : List Char → Option Nat
  | [] => none
  | c :: rest =>
    if stop.isPrefixOf (c :: rest) then some 0
    else if c = '\n' then none
    else (findStopIdx stop rest).map (· + 1)

/-- All newline-free occurrence indices of `stop` in `s`, ascending:
the candidate ends a backtracking `(.*?)` group may try in order. -/
def stopCandidates (stop : List Char) : List Char → List Nat
  | [] => []
  | c :: rest =>
    let here := if stop.isPrefixOf (c :: rest) then [0] else []
    if c = '\n' then here
    else here ++ (stopCandidates stop rest).map (· + 1)

/-- Index of the first occurrence of `pat` in `s`. -/
def findSubIdx (pat : List Char) : List Char → Option Nat
  | [] => none
  | c :: rest =>
    if pat.isPrefixOf (c :: rest) then some 0
    else (findSubIdx pat rest).map (· + 1)

/-- `str.split(sep)` for a non-empty separator (left-to-right,
non-overlapping). -/
def splitSep (sep : List Char) : Nat → List Char → List (List Char)
  | 0, s => [s]
  | fuel + 1, s =>
    match findSubIdx sep s with
    | some i => s.take i :: splitSep sep fuel (s.drop (i + sep.length))
    | none => [s]

/-- Python dict entry assignment (`d[k] = v`): overwrite in place or
append. -/
def dictSet : List (String × String) → String → String → List (String × String)
  | [], k, v => [(k, v)]
  | (k', v') :: rest, k, v =>
    if k' == k then (k', v) :: rest else (k', v') :: dictSet rest k v

/-- Python `d.get(k, "")`. -/
def dictGet (m : List (String × String)) (k : String) : String :=
  match m.find? (fun p => p.1 == k) with
  | some p => p.2
  | none => ""

/-- Pass 1 of `VariableService.parse_variables`
(src/app/services/variable_service.py, line 10): remove every comment
directive matched by the comment pattern; on a start marker with no
same-line closing braces the scan simply advances. -/
def commentPass : Nat → List Char → List Char
  | 0, s => s
  | _ + 1, [] => []
  | fuel + 1, c :: rest =>
    if ['\x7b', '\x7b', '#'].isPrefixOf (c :: rest) then
      match findStopIdx ['\x7d', '\x7d'] ((c :: rest).drop 3) with
      | some j => commentPass fuel (((c :: rest).drop 3).drop (j + 2))
      | none => c :: commentPass fuel rest
    else c :: commentPass fuel rest

/-- The match attempt of the roll pattern at the head of `s`
(variable_service.py, line 20, `re.IGNORECASE`): literal roll marker,
one or more whitespace characters, digits, a `d`, digits, closing
braces.  Returns (consumed length, count, sides). -/
def matchRollAt (s : List Char) : Option (Nat × Nat × Nat) :=
  if matchCI ['\x7b', '\x7b', 'r', 'o', 'l', 'l'] s then
    let s1 := s.drop 6
    let ws := s1.takeWhile isPySpace
    if ws.isEmpty then none
    else
      let s2 := s1.dropWhile isPySpace
      let d1 := s2.takeWhile (fun c => c.isDigit)
      if d1.isEmpty then none
      else
        match s2.dropWhile (fun c => c.isDigit) with
        | [] => none
        | c :: s4 =>
          if c.toLower = 'd' then
            let d2 := s4.takeWhile (fun c => c.isDigit)
            if d2.isEmpty then none
            else if ['\x7d', '\x7d'].isPrefixOf (s4.dropWhile (fun c => c.isDigit))
            then
              some (6 + ws.length + d1.length + 1 + d2.length + 2,
                    digitsToNat d1, digitsToNat d2)
            else none
          else none
  else none

/-- Pass 2 of `parse_variables` (variable_service.py, lines 13-20):
substitute each roll directive by the rolled sum; `randint(1, 0)`
raises, the bare `except` returns the match unchanged. -/
def rollPass : Nat → PyRandom → List Char → List Char × PyRandom
  | 0, r, s => (s, r)
  | _ + 1, r, [] => ([], r)
  | fuel + 1, r, c :: rest =>
    match matchRollAt (c :: rest) with
    | some (n, count, sides) =>
      if sides = 0 then
        let (tail, r') := rollPass fuel r ((c :: rest).drop n)
        ((c :: rest).take n ++ tail, r')
      else
        let (total, r') := doRolls r count sides
        let (tail, r'') := rollPass fuel r' ((c :: rest).drop n)
        ((toString total).toList ++ tail, r'')
    | none =>
      let (tail, r') := rollPass fuel r rest
      (c :: tail, r')

/-- Pass 3 of `parse_variables` (variable_service.py, lines 23-26):
substitute each random directive by a uniformly chosen option
(`random.choice` modelled as indexing by a stream draw). -/
def randomPass : Nat → PyRandom → List Char → List Char × PyRandom
  | 0, r, s => (s, r)
  | _ + 1, r, [] => ([], r)
  | fuel + 1, r, c :: rest =>
    if ['\x7b', '\x7b', 'r', 'a', 'n', 'd', 'o', 'm', ':', ':'].isPrefixOf
        (c :: rest) then
      let s1 := (c :: rest).drop 10
      match findStopIdx ['\x7d', '\x7d'] s1 with
      | some j =>
        let options := splitSep [':', ':'] (j + 1) (s1.take j)
        let (v, r') := drawRand r
        let chosen := options.getD (v % options.length) []
        let (tail, r'') := randomPass fuel r' (s1.drop (j + 2))
        (chosen ++ tail, r'')
      | none =>
        let (tail, r') := randomPass fuel r rest
        (c :: tail, r')
    else
      let (tail, r') := randomPass fuel r rest
      (c :: tail, r')

/-- The backtracking attempt of the two-group setvar pattern
(variable_service.py, line 34): the first non-greedy group tries each
same-line separator position in order until the rest of the pattern
(second group, closing braces) also matches. -/
def trySetvarCands (rest : List Char) :
    List Nat → Option (List Char × List Char × List Char)
  | [] => none
  | i :: more =>
    let name := rest.take i
    let tail := rest.drop (i + 2)
    match findStopIdx ['\x7d', '\x7d'] tail with
    | some j => some (name, tail.take j, tail.drop (j + 2))
    | none => trySetvarCands rest more

/-- Pass 4 of `parse_variables` (variable_service.py, lines 29-34):
each setvar directive stores name/value in `local_vars` (sequentially,
left to right) and is replaced by the empty string. -/
def setvarPass :
    Nat → List (String × String) → List Char →
      List Char × List (String × String)
  | 0, vars, s => (s, vars)
  | _ + 1, vars, [] => ([], vars)
  | fuel + 1, vars, c :: rest =>
    if ['\x7b', '\x7b', 's', 'e', 't', 'v', 'a', 'r', ':', ':'].isPrefixOf
        (c :: rest) then
      let s1 := (c :: rest).drop 10
      match trySetvarCands s1 (stopCandidates [':', ':'] s1) with
      | some (name, value, remaining) =>
        let vars' := dictSet vars (String.mk name) (String.mk value)
        let (tail, vars'') := setvarPass fuel vars' remaining
        (tail, vars'')
      | none =>
        let (tail, vars') := setvarPass fuel vars rest
        (c :: tail, vars')
    else
      let (tail, vars') := setvarPass fuel vars rest
      (c :: tail, vars')

/-- Pass 5 of `parse_variables` (variable_service.py, lines 37-40):
each getvar directive is replaced by the stored value, or the empty
string on a miss. -/
def getvarPass (vars : List (String × String)) :
    Nat → List Char → List Char
  | 0, s => s
  | _ + 1, [] => []
  | fuel + 1, c :: rest =>
    if ['\x7b', '\x7b', 'g', 'e', 't', 'v', 'a', 'r', ':', ':'].isPrefixOf
        (c :: rest) then
      let s1 := (c :: rest).drop 10
      match findStopIdx ['\x7d', '\x7d'] s1 with
      | some j =>
        (dictGet vars (String.mk (s1.take j))).toList
          ++ getvarPass vars fuel (s1.drop (j + 2))
      | none => c :: getvarPass vars fuel rest
    else c :: getvarPass vars fuel rest

/-- `VariableService.parse_variables`
(src/app/services/variable_service.py, lines 8-42): the five passes in
their fixed order, threading `self.local_vars` and the random stream.
Each pass consumes at least one character per step, so an initial fuel
of length + 1 never runs out. -/
def parseVariables (vars : List (String × String)) (rng : PyRandom)
    (text : String) : String × List (String × String) × PyRandom :=
  let s0 := text.toList
  let s1 := commentPass (s0.length + 1) s0
  let (s2, rng1) := rollPass (s1.length + 1) rng s1
  let (s3, rng2) := randomPass (s2.length + 1) rng1 s2
  let (s4, vars1) := setvarPass (s3.length + 1) vars s3
  let s5 := getvarPass vars1 (s4.length + 1) s4
  (String.mk s5, vars1, rng2)

/-- The variable stage of `_apply_preprocessing`
(src/app/services/chat_processor.py, lines 279-282): apply
`variable_service.parse_variables` to each string-typed message
content.  The state is the module-level singleton
`variable_service.local_vars` (plus the random stream), threaded in and
out so that cross-call sharing can be expressed. -/
def applyVariablesToMessages (vars : List (String × String)) (rng : PyRandom) :
    List ChatMessage → List ChatMessage × List (String × String) × PyRandom
  | [] => ([], vars, rng)
  | m :: rest =>
    match m.content with
    | .text s =>
      let (s', vars1, rng1) := parseVariables vars rng s
      let (tail, vars2, rng2) := applyVariablesToMessages vars1 rng1 rest
      ((⟨m.role, .text s'⟩ : ChatMessage) :: tail, vars2, rng2)
    | .complex d =>
      let (tail, vars1, rng1) := applyVariablesToMessages vars rng rest
      ((⟨m.role, .complex d⟩ : ChatMessage) :: tail, vars1, rng1)

/-- An element of a compiled regular expression in the fragment the
theorems exercise: a literal character or a capturing group of
literals.  (Pattern compilation itself is Python's `re`, external to
the repository.) -/
inductive PatElem where
  | lit (c : Char)
  | group (cs : List Char)
  deriving Repr, DecidableEq

/-- Match a fragment pattern at the head of `s`; returns the consumed
length and the captured group texts in group order. -/
def reMatchAt : List PatElem → List Char → Option (Nat × List (List Char))
  | [], _ => some (0, [])
  | .lit c :: ps, x :: xs =>
    if x = c then (reMatchAt ps xs).map (fun p => (p.1 + 1, p.2)) else none
  | .lit _ :: _, [] => none
  | .group g :: ps, s =>
    if g.isPrefixOf s then
      (reMatchAt ps (s.drop g.length)).map (fun p => (p.1 + g.length, g :: p.2))
    else none

/-- Python's `re.sub` replacement-template expansion: a backslash
followed by a digit 1-9 inserts the corresponding captured group; every
other character — `$` included — is copied literally.  (Python raises
on a reference to a non-existent group; the theorems only use in-range
references.) -/
def expandTemplate (groups : List (List Char)) : List Char → List Char
  | [] => []
  | '\\' :: c :: rest =>
    if c.isDigit ∧ c ≠ '0' then
      groups.getD (c.toNat - 49) [] ++ expandTemplate groups rest
    else if c = '\\' then '\\' :: expandTemplate groups rest
    else '\\' :: c :: expandTemplate groups rest
  | c :: rest => c :: expandTemplate groups rest

/-- `re.sub(pattern, replacement, text)`: leftmost, non-overlapping
scan; each match is replaced by the expanded template and scanning
resumes after it. -/
def reSubAux (pat : List PatElem) (repl : List Char) :
    Nat → List Char → List Char
  | 0, s => s
  | _ + 1, [] => []
  | fuel + 1, c :: rest =>
    match reMatchAt pat (c :: rest) with
    | some (n, gs) =>
      if n = 0 then c :: reSubAux pat repl fuel rest
      else expandTemplate gs repl ++ reSubAux pat repl fuel ((c :: rest).drop n)
    | none => c :: reSubAux pat repl fuel rest

/-- String-level wrapper for `re.sub`. -/
def reSub (pat : List PatElem) (repl : String) (text : String) : String :=
  String.mk (reSubAux pat repl.toList (text.toList.length + 1) text.toList)

/-- A `RegexRule` / `PresetRegexRule` row restricted to the fields
`RegexService.process` reads; `pattern = none` models a pattern string
whose compilation raises `re.error`. -/
structure RegexRuleM where
  pattern : Option (List PatElem)
  replacement : String
  rtype : String
  is_active : Bool
  deriving Repr, DecidableEq

/-- `RegexService.process` (src/app/services/regex_service.py, lines
7-17): fold the rules over the text, skipping inactive rules and
uncompilable patterns. -/
def regexProcess (text : String) (rules : List RegexRuleM) : String :=
  rules.foldl (fun t r =>
    if ¬ r.is_active then t
    else
      match r.pattern with
      | none => t
      | some p => reSub p r.replacement t) text


/-- A Python value sitting in a message dict: `None`, a string, or a
non-string (list/dict) carrying its `str()` rendering and its
truthiness. -/
inductive PyVal where
  | pynone
  | pystr (s : String)
  | pyother (reprStr : String) (truthy : Bool)
  deriving Repr, DecidableEq

/-- Python truthiness (`if value:`). -/
def pyTruthy : PyVal → Bool
  | .pynone => false
  | .pystr s => ¬ s.isEmpty
  | .pyother _ t => t

/-- Python `str(value)`. -/
def pyStrVal : PyVal → String
  | .pynone => "None"
  | .pystr s => s
  | .pyother r _ => r

/-- `count_tokens_for_messages` (src/app/models/key.py, lines 30-44):
4 tokens per message, the tokenizer length of each truthy field value,
minus one whenever a `name` key is seen, plus 2 for reply priming.
`tok` stands for `len(tokenizer.encode(·))` (tiktoken, external). -/
def countTokensForMessages (tok : String → Nat)
    (messages : List (List (String × PyVal))) : Nat :=
  (messages.foldl (fun num message =>
    message.foldl (fun num kv =>
      let num := if pyTruthy kv.2 then num + tok (pyStrVal kv.2) else num
      if kv.1 == "name" then num - 1 else num) (num + 4)) 0) + 2

/-- The per-field token contribution named by the claim. -/
def fieldTok (tok : String → Nat) (kv : String × PyVal) : Nat :=
  if pyTruthy kv.2 then tok (pyStrVal kv.2) else 0

/-- The per-message total named by the claim: 4 tokens plus each
non-empty field value's length, minus 1 when a name field is present. -/
def msgTokens (tok : String → Nat) (m : List (String × PyVal)) : Nat :=
  4 + (m.map (fieldTok tok)).sum
    - (if m.any (fun kv => kv.1 == "name") then 1 else 0)

/-- The token count claim C9 states: per-message totals plus 2 tokens of
reply priming. -/
def claimTokenFormula (tok : String → Nat)
    (messages : List (List (String × PyVal))) : Nat :=
  2 + (messages.map (msgTokens tok)).sum

/-- A `Log` row restricted to the fields the claims mention; the
wall-clock fields (`latency`, `ttft`) are not modelled. -/
structure LogEntry where
  model : String
  status : String
  status_code : Int
  is_stream : Bool
  input_tokens : Nat
  output_tokens : Nat
  deriving Repr, DecidableEq

/-- `ChatProcessor._create_initial_log` (src/app/services/
chat_processor.py, lines 315-330): constructs the Log object with
status `processing` and the token count of the messages it is given —
and only constructs it; nothing is added to the database session. -/
def createInitialLog (tok : String → Nat) (model : String)
    (is_stream : Bool) (messages : List (List (String × PyVal))) : LogEntry :=
  { model := model, status := "processing", status_code := 0,
    is_stream := is_stream,
    input_tokens := countTokensForMessages tok messages, output_tokens := 0 }

/-- `ChatProcessor._finalize_log` (src/app/services/chat_processor.py,
lines 332-366): writes the terminal status (`ok` iff 2xx) and output
tokens into the log entry, inserts it, and applies the key-statistics
update; the committed-rows list models the database. -/
def finalizeLog (db : List LogEntry) (log : LogEntry) (key : OKey)
    (status_code : Int) (output_tokens : Nat) :
    List LogEntry × LogEntry × OKey :=
  let entry := { log with
    status_code := status_code,
    status := if 200 ≤ status_code ∧ status_code < 300 then "ok" else "error",
    output_tokens := output_tokens }
  (db ++ [entry], entry,
   finalizeKeyUpdate key status_code log.input_tokens output_tokens)

/-- Outcome of the upstream POST in `non_stream_chat_completion`
(chat_processor.py, lines 368-393): a response with some status, or an
`httpx.RequestError`, which that method does not catch. -/
inductive Upstream where
  | response (status : Int) (content : String)
  | transportErr
  deriving Repr, DecidableEq

/-- The non-streaming branch of `ChatProcessor.process_request`
(chat_processor.py, lines 51-80) restricted to its database effects:
the log object is created (not inserted), the upstream call is made,
and `_finalize_log` runs only when that call returns — a transport
error propagates out of the handler with the log never written. -/
def processNonStream (tok : String → Nat) (db : List LogEntry) (key : OKey)
    (model : String) (preMsgs : List (List (String × PyVal)))
    (upstream : Upstream) : List LogEntry × OKey :=
  let log := createInitialLog tok model false preMsgs
  match upstream with
  | .transportErr => (db, key)
  | .response status content =>
    let r := finalizeLog db log key status (tok content)
    (r.1, r.2.2)

/-- One dict decoded from a `data:` stream chunk, restricted to what
`_logged_stream_generator` reads: whether `get('error')` is truthy, the
error's `code` (none = non-numeric, falling back to 500), and the
accumulated `choices[0].delta.content` text (empty when absent). -/
structure ChunkItem where
  errTruthy : Bool
  errCode : Option Int
  delta : String
  deriving Repr, DecidableEq

/-- One emission of the wrapped generator, as
`_logged_stream_generator` classifies it. -/
inductive StreamChunk where
  | data (items : List ChunkItem)
  | done
  | undecodable
  | other
  deriving Repr, DecidableEq

/-- The per-chunk scan of `_logged_stream_generator` (chat_processor.py,
lines 406-425): `data:` payloads update the status code from a truthy
`error` and append delta content; `[DONE]`, undecodable payloads and
non-`data:` chunks are passed through untouched. -/
def scanChunkStep (p : Int × String) : StreamChunk → Int × String
  | .data items =>
    items.foldl (fun p item =>
      let st := if item.errTruthy then item.errCode.getD 500 else p.1
      (st, p.2 ++ item.delta)) p
  | _ => p

/-- `_logged_stream_generator` (chat_processor.py, lines 395-431)
restricted to its database effects: the consumed prefix of the chunk
stream (all of it on normal termination, fewer on client disconnect) is
scanned starting from status 200, and the `finally:` block finalizes
the log exactly once with the scanned status and the token count of the
accumulated content. -/
def streamRun (tok : String → Nat) (db : List LogEntry) (key : OKey)
    (model : String) (preMsgs : List (List (String × PyVal)))
    (chunks : List StreamChunk) (consumed : Nat) :
    List LogEntry × LogEntry × OKey :=
  let log := createInitialLog tok model true preMsgs
  let r := (chunks.take consumed).foldl scanChunkStep (200, "")
  finalizeLog db log key r.1 (tok r.2)

/-- `msg.dict()` for a canonical message without a `name` field.
Modelled from the spec (the pydantic schema module is not among the
sources): the dict carries the role and content entries. -/
def msgDict (m : ChatMessage) : List (String × PyVal) :=
  [("role", .pystr m.role),
   ("content",
     match m.content with
     | .text s => .pystr s
     | .complex d => .pyother d true)]

/-- `ChatProcessor._apply_preprocessing` (chat_processor.py, lines
157-284): pre-type regex rules (global then preset-local) over each
textual content, then the preset stage, then variable expansion. -/
def applyPreprocessing (globalRules localRules : List RegexRuleM)
    (items : List PItem) (vars : List (String × String)) (rng : PyRandom)
    (messages : List ChatMessage) :
    List ChatMessage × List (String × String) × PyRandom :=
  let globalPre := globalRules.filter (fun r => r.rtype == "pre")
  let localPre := localRules.filter (fun r => r.rtype == "pre")
  let m1 := messages.map (fun m =>
    match m.content with
    | .text s =>
      (⟨m.role, .text (regexProcess (regexProcess s globalPre) localPre)⟩ :
        ChatMessage)
    | .complex d => (⟨m.role, .complex d⟩ : ChatMessage))
  let m2 := applyPresetItems items m1
  applyVariablesToMessages vars rng m2


/-- `str.startswith` modelled over the character list. -/
def pyStartsWith (s p : String) : Bool :=
  p.toList.isPrefixOf s.toList

/-- `str.lower()` modelled over the character list. -/
def pyLower (s : String) : String :=
  String.mk (s.toList.map Char.toLower)

/-- Contiguous-sublist test (helper for Python's `in` on strings). -/
def containsSub (ndl : List Char) : List Char → Bool
  | [] => ndl.isEmpty
  | c :: rest => ndl.isPrefixOf (c :: rest) || containsSub ndl rest

/-- Python's substring containment (`needle in hay`). -/
def strContains (hay needle : String) : Bool :=
  containsSub needle.toList hay.toList

/-- The effective requested model of the Gemini conversion branch
(proxy_service.py, lines 217-223): the raw body model, falling back to
the converted body's model, then to `gemini-1.5-pro`. -/
def effectiveGeminiModel (bodyModel : String)
    (convertedModel : Option String) : String :=
  if bodyModel.isEmpty then convertedModel.getD "gemini-1.5-pro"
  else bodyModel

/-- The action `universal_proxy` selects (universal_routes.py, line 88):
streaming when the body's stream flag is set or the path mentions
`stream`. -/
def universalAction (stream : Bool) (path : String) : String :=
  if stream ∨ strContains path "stream" then "streamGenerateContent"
  else "generateContent"

/-- The Gemini branch of `ProxyService._handle_conversion`
(src/app/services/proxy_service.py, lines 214-256): the model comes
from the raw body (falling back to the converted body, then to
`gemini-1.5-pro`); a model whose lowercase form contains `gemini`
passes through; otherwise `gpt-3.5` maps to `gemini-1.5-flash`,
`gpt-4` to `gemini-1.5-pro`, anything else to `gemini-1.5-pro`; a
missing `models/` prefix is prepended; the action follows the body's
`stream` flag.  Returns (model path, action). -/
def handleConversionGemini (bodyModel : String)
    (convertedModel : Option String) (stream : Bool) : String × String :=
  let raw := effectiveGeminiModel bodyModel convertedModel
  let model :=
    if ¬ strContains (pyLower raw) "gemini" then
      if strContains raw "gpt-3.5" then "gemini-1.5-flash"
      else if strContains raw "gpt-4" then "gemini-1.5-pro"
      else "gemini-1.5-pro"
    else raw
  let model :=
    if ¬ pyStartsWith model "models/" then "models/" ++ model else model
  (model, if stream then "streamGenerateContent" else "generateContent")

/-- The Gemini branch of `universal_proxy`
(src/app/api/endpoints/universal_routes.py, lines 73-97): default model
`gemini-1.5-pro`; a model already carrying `models/` passes through
verbatim; otherwise a model containing `gemini` (case-sensitively) is
prefixed, `gpt-4` maps to `models/gemini-1.5-pro`, `gpt-3.5` to
`models/gemini-1.0-pro`, anything else to `models/gemini-1.5-pro`; the
action is the streaming one when the body's `stream` flag is true OR
the path contains `stream`.  Returns the upstream path
`{model}:{action}`. -/
def universalProxyGeminiPath (bodyModel : Option String) (stream : Bool)
    (path : String) : String :=
  let model := bodyModel.getD "gemini-1.5-pro"
  let model :=
    if ¬ pyStartsWith model "models/" then
      if strContains model "gemini" then
        if ¬ pyStartsWith model "models/" then "models/" ++ model else model
      else
        if strContains model "gpt-4" then "models/gemini-1.5-pro"
        else if strContains model "gpt-3.5" then "models/gemini-1.0-pro"
        else "models/gemini-1.5-pro"
    else model
  let action :=
    if stream ∨ strContains path "stream" then "streamGenerateContent"
    else "generateContent"
  model ++ ":" ++ action

/-- The fallback table exactly as claim C8 states it: `gpt-3.5` →
`gemini-1.5-flash`, `gpt-4` → `gemini-1.5-pro`, a model containing
`gemini` passes through, anything else → `gemini-1.5-pro`. -/
def claimC8Model (model : String) : String :=
  if strContains model "gpt-3.5" then "gemini-1.5-flash"
  else if strContains model "gpt-4" then "gemini-1.5-pro"
  else if strContains model "gemini" then model
  else "gemini-1.5-pro"

end AnyApi

namespace AnyApi

/-- Claim C1, counterexample:  The claim asserts the circuit-breaker
transition on *every* finalize path that records an outcome.
`ChatProcessor._finalize_log` is such a path, and it violates the claim:
on a key with `error_count = 2` a 2xx outcome leaves `error_count = 2`
instead of resetting it to 0, and a 500 outcome drives `error_count` to 3
while leaving the key active with `last_status = "500"`. -/
theorem finalize_log_violates_circuit_breaker :
    (finalizeKeyUpdate ⟨1, "sk", 0, 2, 0, 0, 0, "429", none, true⟩ 200 0 0).error_count ≠ 0 ∧
    (finalizeKeyUpdate ⟨1, "sk", 0, 2, 0, 0, 0, "429", none, true⟩ 500 0 0).error_count = 3 ∧
    (finalizeKeyUpdate ⟨1, "sk", 0, 2, 0, 0, 0, "429", none, true⟩ 500 0 0).is_active = true ∧
    ¬ (CircuitBreakerSpec updateKeyStatus ∧ CircuitBreakerSpec finalizeKeyUpdate) := by
  refine ⟨by decide, by decide, by decide, fun h => ?_⟩
  have h2 := (h.2 ⟨1, "sk", 0, 2, 0, 0, 0, "429", none, true⟩ 200 0 0).1 (by decide)
  simp [finalizeKeyUpdate] at h2

/-- Claim C1, amended:  `update_key_status` (GeminiService and
ClaudeService share this body) satisfies the claimed circuit-breaker
transition; `ChatProcessor._finalize_log` instead leaves `error_count`
untouched on a 2xx (setting `last_status = "active"`), increments it on a
non-2xx (setting `last_status = str(status)`), and never flips
`is_active` or writes `"auto_disabled"`. -/
theorem updateKeyStatus_circuit_breaker_finalize_log_contrast :
    CircuitBreakerSpec updateKeyStatus ∧
    ∀ k s it ot,
      ((200 ≤ s ∧ s < 300) →
        (finalizeKeyUpdate k s it ot).error_count = k.error_count ∧
        (finalizeKeyUpdate k s it ot).last_status = "active" ∧
        (finalizeKeyUpdate k s it ot).is_active = k.is_active) ∧
      (¬ (200 ≤ s ∧ s < 300) →
        (finalizeKeyUpdate k s it ot).error_count = k.error_count + 1 ∧
        (finalizeKeyUpdate k s it ot).last_status = toString s ∧
        (finalizeKeyUpdate k s it ot).is_active = k.is_active) := by
  constructor
  · intro k s it ot
    by_cases h2 : 200 ≤ s ∧ s < 300 <;>
      by_cases hec : k.error_count + 1 ≥ 3 <;>
        refine ⟨fun ha => ?_, fun ha => ?_, fun h3 => ?_⟩ <;>
          first
            | exact absurd h2 ha
            | exact absurd ha h2
            | (exfalso; simp [updateKeyStatus, h2, hec] at h3 <;> omega)
            | simp [updateKeyStatus, h2, hec]
  · intro k s it ot
    refine ⟨fun h2 => ?_, fun h2 => ?_⟩
    · refine ⟨?_, ?_, ?_⟩ <;> simp [finalizeKeyUpdate, h2]
    · refine ⟨?_, ?_, ?_⟩ <;> simp [finalizeKeyUpdate, h2]

/-- Witness for the amended C1 theorem at concrete inputs: a 429 on a key
with two prior consecutive errors auto-disables it under
`update_key_status`, while a 2xx under `_finalize_log` keeps the stale
error count. -/
theorem updateKeyStatus_circuit_breaker_witness :
    (updateKeyStatus ⟨1, "sk", 0, 2, 0, 0, 0, "429", none, true⟩ 429 0 0).error_count =
      (⟨1, "sk", 0, 2, 0, 0, 0, "429", none, true⟩ : OKey).error_count + 1 ∧
    (finalizeKeyUpdate ⟨1, "sk", 0, 2, 0, 0, 0, "429", none, true⟩ 204 5 7).error_count =
      (⟨1, "sk", 0, 2, 0, 0, 0, "429", none, true⟩ : OKey).error_count :=
  ⟨((updateKeyStatus_circuit_breaker_finalize_log_contrast.1
      ⟨1, "sk", 0, 2, 0, 0, 0, "429", none, true⟩ 429 0 0).2.1 (by decide)),
   ((updateKeyStatus_circuit_breaker_finalize_log_contrast.2
      ⟨1, "sk", 0, 2, 0, 0, 0, "429", none, true⟩ 204 5 7).1 (by decide)).1⟩

/-- Claim C2:  `ClaudeService.get_active_key_str` checks that some active
key exists but then returns the bare rotation draw, which is not
activity-checked: with key 1 (active) under the cursor and key 2
(inactive) next in rotation, it returns the inactive key's secret —
contradicting its own docstring ("Finds and returns an active key
string") and the claim.  (`GeminiService.get_active_key` does re-check
activity; the defect is in the Claude path.) -/
theorem claude_get_active_key_str_returns_inactive_key :
    claudeGetActiveKeyStr
      [⟨1, "sk-ant-one", 0, 0, 0, 0, 0, "active", none, true⟩,
       ⟨2, "sk-ant-two", 0, 3, 0, 0, 0, "auto_disabled", none, false⟩]
      (some 1) = .ok ("sk-ant-two", 2) ∧
    (⟨2, "sk-ant-two", 0, 3, 0, 0, 0, "auto_disabled", none, false⟩ : OKey).is_active
      = false := by
  constructor
  · rfl
  · rfl

theorem presetItemStep_append (lu : Option ChatMessage)
    (hist : List ChatMessage) (acc : List ChatMessage) (it : PItem) :
    presetItemStep lu hist acc it = acc ++ presetItemStep lu hist [] it := by
  by_cases hen : it.enabled = true <;>
    by_cases h1 : it.itemType = "normal" <;>
      by_cases h2 : it.itemType = "user_input" <;>
        by_cases h3 : it.itemType = "history" <;>
          cases lu <;>
            simp [presetItemStep, hen, h1, h2, h3]

theorem foldl_presetItemStep (lu : Option ChatMessage)
    (hist : List ChatMessage) :
    ∀ (items : List PItem) (acc : List ChatMessage),
      items.foldl (presetItemStep lu hist) acc
        = acc ++ items.flatMap (fun it => presetItemStep lu hist [] it)
  | [], acc => by simp
  | it :: its, acc => by
    rw [List.foldl_cons, List.flatMap_cons,
        foldl_presetItemStep lu hist its (presetItemStep lu hist acc it),
        presetItemStep_append, List.append_assoc]

theorem lastUserIdx_lt (messages : List ChatMessage) (i : Nat)
    (h : lastUserIdx messages = some i) : i < messages.length := by
  have hmem := List.mem_of_find?_eq_some h
  simpa [List.mem_reverse, List.mem_range] using hmem

theorem lastUserIdx_role (messages : List ChatMessage) (i : Nat)
    (h : lastUserIdx messages = some i) :
    (messages.getD i default).role = "user" := by
  simpa using List.find?_some h

theorem lastUserIdx_isSome (messages : List ChatMessage)
    (h : ∃ m ∈ messages, m.role = "user") :
    ∃ i, lastUserIdx messages = some i := by
  obtain ⟨m, hm, hrole⟩ := h
  obtain ⟨j, hj, hjm⟩ := List.mem_iff_getElem.mp hm
  have hp : ((messages.getD j default).role == "user") = true := by
    rw [List.getD_eq_getElem _ _ hj, hjm]
    simpa using hrole
  have hsome :
      ((List.range messages.length).reverse.find?
        (fun i => (messages.getD i default).role == "user")).isSome = true := by
    rw [List.find?_isSome]
    exact ⟨j, by simpa [List.mem_reverse, List.mem_range] using hj, hp⟩
  obtain ⟨i, hi⟩ := Option.isSome_iff_exists.mp hsome
  exact ⟨i, hi⟩

theorem lastUserIdx_none (messages : List ChatMessage)
    (h : ∀ m ∈ messages, m.role ≠ "user") :
    lastUserIdx messages = none := by
  rw [lastUserIdx, List.find?_eq_none]
  intro i hi
  have hlt : i < messages.length := by
    simpa [List.mem_reverse, List.mem_range] using hi
  have : messages.getD i default ∈ messages := by
    rw [List.getD_eq_getElem _ _ hlt]
    exact List.getElem_mem hlt
  simpa using h _ this

theorem safe_flatten_textual (m : ChatMessage)
    (h : ∃ s, m.content = MsgContent.text s) :
    (⟨m.role, .text (safeContentToString m.content)⟩ : ChatMessage) = m := by
  obtain ⟨s, hs⟩ := h
  cases m
  simp only at hs
  subst hs
  rfl

theorem flatMap_filter_enabled (f g : PItem → List ChatMessage)
    (hfg : ∀ it, f it = if it.enabled then g it else []) :
    ∀ items : List PItem,
      items.flatMap f = (items.filter (fun it => it.enabled)).flatMap g
  | [] => by simp
  | it :: its => by
    by_cases hen : it.enabled = true <;>
      simp [List.flatMap_cons, List.filter_cons, hen, hfg it,
            flatMap_filter_enabled f g hfg its]

/-- Claim C5, counterexample:  Two edges where the claim as stated fails on
the code.  (a) empty original list: the preset stage is skipped outright
(`if presets and request.messages:`), so an enabled `normal` item does
not replace the list even though the claim says one message would be
appended and would replace it.  (b) a `user_input` item does not append
"the last original message whose role is user" itself: complex content
is flattened to its JSON string, so the appended message differs from
the original one. -/
theorem preset_replacement_claim_edge_failures :
    (applyPresetItems [⟨"system", "normal", "SYS", true, 0⟩] [] = [] ∧
     claimC5Appended [⟨"system", "normal", "SYS", true, 0⟩] []
       = [⟨"system", .text "SYS"⟩]) ∧
    (applyPresetItems [⟨"system", "user_input", "", true, 0⟩]
        [⟨"user", .complex "[1, 2]"⟩]
      = [⟨"user", .text "[1, 2]"⟩] ∧
     claimC5Appended [⟨"system", "user_input", "", true, 0⟩]
        [⟨"user", .complex "[1, 2]"⟩]
      = [⟨"user", .complex "[1, 2]"⟩]) := by
  refine ⟨⟨rfl, rfl⟩, ⟨?_, rfl⟩⟩
  simp [applyPresetItems, List.mergeSort_singleton, lastUserIdx,
        presetItemStep, safeContentToString]
  rfl

/-- Claim C5, amended:  On a non-empty message list containing a user-role
message, with the enabled items taken in ascending sort order, the
preset stage appends exactly the messages the claim describes —
`user_input` and `history` copies carry stringified content, which
coincides with the original messages when their content is textual —
and the result replaces the whole list precisely when at least one
message was appended. -/
theorem applyPresetItems_matches_claim (items : List PItem)
    (messages : List ChatMessage) (hne : messages ≠ [])
    (hsorted : items.Pairwise (fun a b => a.sort_order ≤ b.sort_order))
    (htext : ∀ m ∈ messages, ∃ s, m.content = MsgContent.text s)
    (huser : ∃ m ∈ messages, m.role = "user") :
    applyPresetItems items messages =
      if claimC5Appended items messages = [] then messages
      else claimC5Appended items messages := by
  obtain ⟨iu, hiu⟩ := lastUserIdx_isSome messages huser
  have hlt := lastUserIdx_lt messages iu hiu
  have hms : items.mergeSort (fun a b => decide (a.sort_order ≤ b.sort_order))
      = items :=
    List.mergeSort_of_sorted (hsorted.imp (fun h => by simpa using h))
  have hempty : messages.isEmpty = false := by
    simp [List.isEmpty_iff, hne]
  have hfg : ∀ it : PItem,
      presetItemStep (some (messages.getD iu default)) (messages.take iu) [] it
        = if it.enabled then
            (if it.itemType == "normal" then [⟨it.role, .text it.content⟩]
             else if it.itemType == "user_input" then
               match lastUserIdx messages with
               | some i => [messages.getD i default]
               | none => []
             else if it.itemType == "history" then
               match lastUserIdx messages with
               | some i => messages.take i
               | none => []
             else [])
          else [] := by
    intro it
    by_cases hen : it.enabled = true
    · by_cases h1 : it.itemType = "normal"
      · simp [presetItemStep, hen, h1, hiu]
      · by_cases h2 : it.itemType = "user_input"
        · have hmem : messages.getD iu default ∈ messages := by
            rw [List.getD_eq_getElem _ _ hlt]
            exact List.getElem_mem hlt
          have hflat := safe_flatten_textual _ (htext _ hmem)
          simp [presetItemStep, hen, h1, h2, hiu]
          simpa using hflat
        · by_cases h3 : it.itemType = "history"
          · have hmap : (messages.take iu).map
                (fun h =>
                  (⟨h.role, .text (safeContentToString h.content)⟩ : ChatMessage))
                = messages.take iu := by
              have hcg := List.map_congr_left
                (l := messages.take iu)
                (f := fun h =>
                  (⟨h.role, .text (safeContentToString h.content)⟩ : ChatMessage))
                (g := id)
                (fun a ha =>
                  safe_flatten_textual a (htext a (List.take_subset _ _ ha)))
              simpa using hcg
            simp [presetItemStep, hen, h1, h2, h3, hiu, hmap]
          · simp [presetItemStep, hen, h1, h2, h3]
    · simp [presetItemStep, hen]
  have hproc :
      items.foldl
        (presetItemStep (some (messages.getD iu default)) (messages.take iu)) []
        = claimC5Appended items messages := by
    rw [foldl_presetItemStep, List.nil_append, claimC5Appended,
        flatMap_filter_enabled _ _ hfg]
  unfold applyPresetItems
  rw [if_neg (by simp [hempty])]
  simp only [hms, hiu, Option.map_some']
  rw [hproc]
  simp [List.isEmpty_iff]

/-- Witness for the amended C5 theorem: the S4-style preset
[system-normal "SYS", user_input] applied to the single user message
"hi". -/
theorem applyPresetItems_matches_claim_witness :
    applyPresetItems
      [⟨"system", "normal", "SYS", true, 0⟩, ⟨"user", "user_input", "", true, 1⟩]
      [⟨"user", .text "hi"⟩]
      = if claimC5Appended
            [⟨"system", "normal", "SYS", true, 0⟩,
             ⟨"user", "user_input", "", true, 1⟩]
            [⟨"user", .text "hi"⟩] = [] then [⟨"user", .text "hi"⟩]
        else claimC5Appended
            [⟨"system", "normal", "SYS", true, 0⟩,
             ⟨"user", "user_input", "", true, 1⟩]
            [⟨"user", .text "hi"⟩] :=
  applyPresetItems_matches_claim _ _ (by simp) (by decide)
    (by
      intro m hm
      rw [List.mem_singleton] at hm
      subst hm
      exact ⟨"hi", rfl⟩)
    ⟨⟨"user", .text "hi"⟩, by simp, rfl⟩

/-- Claim C10:  When no original message has role `user`, the preset stage
treats the whole original list as history: a `history` item appends
every original message (in order, unchanged when content is textual)
and a `user_input` item appends nothing; the non-empty replacement rule
is unchanged. -/
theorem applyPresetItems_no_user_message (items : List PItem)
    (messages : List ChatMessage) (hne : messages ≠ [])
    (hsorted : items.Pairwise (fun a b => a.sort_order ≤ b.sort_order))
    (htext : ∀ m ∈ messages, ∃ s, m.content = MsgContent.text s)
    (hnouser : ∀ m ∈ messages, m.role ≠ "user") :
    applyPresetItems items messages =
      if noUserAppended items messages = [] then messages
      else noUserAppended items messages := by
  have hnone := lastUserIdx_none messages hnouser
  have hms : items.mergeSort (fun a b => decide (a.sort_order ≤ b.sort_order))
      = items :=
    List.mergeSort_of_sorted (hsorted.imp (fun h => by simpa using h))
  have hempty : messages.isEmpty = false := by
    simp [List.isEmpty_iff, hne]
  have hmap : messages.map
      (fun h => (⟨h.role, .text (safeContentToString h.content)⟩ : ChatMessage))
      = messages := by
    have hcg := List.map_congr_left
      (l := messages)
      (f := fun h =>
        (⟨h.role, .text (safeContentToString h.content)⟩ : ChatMessage))
      (g := id)
      (fun a ha => safe_flatten_textual a (htext a ha))
    simpa using hcg
  have hfg : ∀ it : PItem,
      presetItemStep none messages [] it
        = if it.enabled then
            (if it.itemType == "normal" then [⟨it.role, .text it.content⟩]
             else if it.itemType == "user_input" then []
             else if it.itemType == "history" then messages
             else [])
          else [] := by
    intro it
    by_cases hen : it.enabled = true
    · by_cases h1 : it.itemType = "normal"
      · simp [presetItemStep, hen, h1]
      · by_cases h2 : it.itemType = "user_input"
        · simp [presetItemStep, hen, h1, h2]
        · by_cases h3 : it.itemType = "history"
          · simp [presetItemStep, hen, h1, h2, h3, hmap]
          · simp [presetItemStep, hen, h1, h2, h3]
    · simp [presetItemStep, hen]
  have hproc :
      items.foldl (presetItemStep none messages) []
        = noUserAppended items messages := by
    rw [foldl_presetItemStep, List.nil_append, noUserAppended,
        flatMap_filter_enabled _ _ hfg]
  unfold applyPresetItems
  rw [if_neg (by simp [hempty])]
  simp only [hms, hnone, Option.map_none']
  rw [hproc]
  simp [List.isEmpty_iff]

/-- Witness for C10: a history-only preset over a user-less conversation
appends the full original list. -/
theorem applyPresetItems_no_user_message_witness :
    applyPresetItems [⟨"system", "history", "", true, 0⟩]
      [⟨"assistant", .text "a"⟩, ⟨"system", .text "b"⟩]
      = if noUserAppended [⟨"system", "history", "", true, 0⟩]
            [⟨"assistant", .text "a"⟩, ⟨"system", .text "b"⟩] = []
        then [⟨"assistant", .text "a"⟩, ⟨"system", .text "b"⟩]
        else noUserAppended [⟨"system", "history", "", true, 0⟩]
            [⟨"assistant", .text "a"⟩, ⟨"system", .text "b"⟩] :=
  applyPresetItems_no_user_message _ _ (by simp) (by decide)
    (by
      intro m hm
      rw [List.mem_cons, List.mem_singleton] at hm
      rcases hm with hm | hm <;> subst hm
      · exact ⟨"a", rfl⟩
      · exact ⟨"b", rfl⟩)
    (by
      intro m hm
      rw [List.mem_cons, List.mem_singleton] at hm
      rcases hm with hm | hm <;> subst hm <;> decide)


/-- Claim C6: the code's own comment ("Support $1, $2 backreferences")
and the spec promise `$n` backreferences, but Python's `re.sub` template
language treats `$` as a literal character: with rule pattern `(a)` and
replacement `$1` on text `a`, `RegexService.process` yields the literal
string `$1`, not the captured `a`.  Backreferences work only in the
backslash form `\1`. -/
theorem regex_dollar_backref_emitted_literally :
    regexProcess "a" [⟨some [.group ['a']], "$1", "pre", true⟩] = "$1" ∧
    regexProcess "a" [⟨some [.group ['a']], "\\1", "pre", true⟩] = "a" := by
  constructor
  · rfl
  · rfl

/-- Claim C7: `variable_service` is a module-level singleton whose
`local_vars` dict is created once and never cleared, and
`_apply_preprocessing` calls it directly, so the scratch map is shared
across requests: after a first request runs `setvar x secret`, a second
request's `getvar x` expands to `secret` instead of the empty string the
claim requires (a fresh per-request map does yield the empty string). -/
theorem variable_scratch_map_leaks_across_requests :
    (applyVariablesToMessages [] ⟨[]⟩
        [⟨"user", .text "\x7b\x7bsetvar::x::secret\x7d\x7d"⟩]).1
      = [⟨"user", .text ""⟩] ∧
    (applyVariablesToMessages
        (applyVariablesToMessages [] ⟨[]⟩
          [⟨"user", .text "\x7b\x7bsetvar::x::secret\x7d\x7d"⟩]).2.1
        (applyVariablesToMessages [] ⟨[]⟩
          [⟨"user", .text "\x7b\x7bsetvar::x::secret\x7d\x7d"⟩]).2.2
        [⟨"user", .text "x=\x7b\x7bgetvar::x\x7d\x7d"⟩]).1
      = [⟨"user", .text "x=secret"⟩] ∧
    (applyVariablesToMessages [] ⟨[]⟩
        [⟨"user", .text "x=\x7b\x7bgetvar::x\x7d\x7d"⟩]).1
      = [⟨"user", .text "x="⟩] := by
  refine ⟨rfl, rfl, rfl⟩


theorem token_fold_no_name (tok : String → Nat) :
    ∀ (fields : List (String × PyVal)) (n : Nat),
      (∀ kv ∈ fields, (kv.1 == "name") = false) →
      fields.foldl (fun num kv =>
          let num := if pyTruthy kv.2 then num + tok (pyStrVal kv.2) else num
          if kv.1 == "name" then num - 1 else num) n
        = n + (fields.map (fieldTok tok)).sum
  | [], n, _ => by simp
  | kv :: rest, n, h => by
    have hkv := h kv (List.mem_cons_self _ _)
    have hrest := fun kv2 hm => h kv2 (List.mem_cons_of_mem _ hm)
    simp only [List.foldl_cons, List.map_cons, List.sum_cons]
    rw [token_fold_no_name tok rest _ hrest]
    by_cases ht : pyTruthy kv.2 = true <;>
      simp [hkv, ht, fieldTok] <;> omega

theorem token_fold_msg (tok : String → Nat) :
    ∀ (fields : List (String × PyVal)) (n : Nat),
      (fields.filter (fun kv => kv.1 == "name")).length ≤ 1 → 1 ≤ n →
      fields.foldl (fun num kv =>
          let num := if pyTruthy kv.2 then num + tok (pyStrVal kv.2) else num
          if kv.1 == "name" then num - 1 else num) n
        = n + (fields.map (fieldTok tok)).sum
          - (if fields.any (fun kv => kv.1 == "name") then 1 else 0)
  | [], n, _, _ => by simp
  | kv :: rest, n, h1, hn => by
    by_cases hname : (kv.1 == "name") = true
    · have hrest0 : (rest.filter (fun kv => kv.1 == "name")).length = 0 := by
        rw [List.filter_cons] at h1
        simp [hname] at h1
        first
          | omega
          | (simp
             exact h1)
          | simp [h1]
      have hrestno : ∀ kv2 ∈ rest, (kv2.1 == "name") = false := by
        rw [List.length_eq_zero, List.filter_eq_nil_iff] at hrest0
        intro kv2 hm
        simpa using hrest0 kv2 hm
      simp only [List.foldl_cons, List.map_cons, List.sum_cons]
      rw [token_fold_no_name tok rest _ hrestno]
      have hany : (kv :: rest).any (fun kv => kv.1 == "name") = true := by
        simp [List.any_cons, hname]
      rw [hany]
      by_cases ht : pyTruthy kv.2 = true <;>
        simp [hname, ht, fieldTok] <;> omega
    · have h1' : (rest.filter (fun kv => kv.1 == "name")).length ≤ 1 := by
        rw [List.filter_cons] at h1
        simpa [hname] using h1
      simp only [List.foldl_cons, List.map_cons, List.sum_cons]
      by_cases ht : pyTruthy kv.2 = true
      · rw [show ((let num := if pyTruthy kv.2 = true then n + tok (pyStrVal kv.2) else n;
            if (kv.1 == "name") = true then num - 1 else num))
            = n + tok (pyStrVal kv.2) by simp [ht, hname]]
        rw [token_fold_msg tok rest (n + tok (pyStrVal kv.2)) h1' (by omega)]
        have : (kv :: rest).any (fun kv => kv.1 == "name")
            = rest.any (fun kv => kv.1 == "name") := by
          simp [List.any_cons, hname]
        rw [this]
        have hadj : (if rest.any (fun kv => kv.1 == "name") = true then 1 else 0) ≤ 1 := by
          split <;> omega
        simp [fieldTok, ht]
        omega
      · rw [show ((let num := if pyTruthy kv.2 = true then n + tok (pyStrVal kv.2) else n;
            if (kv.1 == "name") = true then num - 1 else num)) = n by simp [ht, hname]]
        rw [token_fold_msg tok rest n h1' hn]
        have : (kv :: rest).any (fun kv => kv.1 == "name")
            = rest.any (fun kv => kv.1 == "name") := by
          simp [List.any_cons, hname]
        rw [this]
        simp [fieldTok, ht]

theorem token_fold_messages (tok : String → Nat) :
    ∀ (msgs : List (List (String × PyVal))) (n : Nat),
      (∀ m ∈ msgs, (m.filter (fun kv => kv.1 == "name")).length ≤ 1) →
      msgs.foldl (fun num message =>
        message.foldl (fun num kv =>
          let num := if pyTruthy kv.2 then num + tok (pyStrVal kv.2) else num
          if kv.1 == "name" then num - 1 else num) (num + 4)) n
        = n + (msgs.map (msgTokens tok)).sum
  | [], n, _ => by simp
  | m :: rest, n, h => by
    have hm := h m (List.mem_cons_self _ _)
    have hrest := fun m2 hmem => h m2 (List.mem_cons_of_mem _ hmem)
    simp only [List.foldl_cons, List.map_cons, List.sum_cons]
    rw [token_fold_msg tok m (n + 4) hm (by omega),
        token_fold_messages tok rest _ hrest]
    have hadj : (if m.any (fun kv => kv.1 == "name") = true then 1 else 0) ≤ 1 := by
      split <;> omega
    rw [msgTokens]
    omega

/-- Claim C9, counterexample: the log is created at chat_processor.py:53,
before `_apply_preprocessing` runs at line 56, so `input_tokens` counts
the PRE-rewrite list.  With tokenizer `String.length`, one user message
"hello world" and a preset that replaces it by the single normal item
(system, "x"), the stored count is 21 while the claimed count of the
final (post-rewrite) list is 13. -/
theorem input_tokens_counted_before_rewrite :
    (createInitialLog String.length "gpt-4" false
        ([⟨"user", MsgContent.text "hello world"⟩].map msgDict)).input_tokens
      = 21 ∧
    countTokensForMessages String.length
        (((applyPreprocessing [] [] [⟨"system", "normal", "x", true, 0⟩]
            [] ⟨[]⟩ [⟨"user", MsgContent.text "hello world"⟩]).1).map msgDict)
      = 13 ∧
    (21 : Nat) ≠ 13 := by
  refine ⟨by rfl, ?_, by decide⟩
  have hpost : (applyPreprocessing [] [] [⟨"system", "normal", "x", true, 0⟩]
      [] ⟨[]⟩ [⟨"user", MsgContent.text "hello world"⟩]).1
      = [⟨"system", MsgContent.text "x"⟩] := by
    simp [applyPreprocessing, applyPresetItems, List.mergeSort_singleton,
          lastUserIdx, presetItemStep, regexProcess]
    rfl
  rw [hpost]
  rfl

/-- Claim C9, amended: `input_tokens` is computed with exactly the
claimed framing formula (4 per message, each truthy field value's
tokenizer length, −1 when a name key is present, +2 reply priming) —
but over the message list as it stands BEFORE the preset/regex/variable
rewriting, since the log is created before `_apply_preprocessing` is
applied; the row starts as `processing` with status code 0. -/
theorem createInitialLog_token_formula (tok : String → Nat) (model : String)
    (stream : Bool) (msgs : List (List (String × PyVal)))
    (hname : ∀ m ∈ msgs, (m.filter (fun kv => kv.1 == "name")).length ≤ 1) :
    (createInitialLog tok model stream msgs).input_tokens
      = claimTokenFormula tok msgs ∧
    (createInitialLog tok model stream msgs).status = "processing" ∧
    (createInitialLog tok model stream msgs).status_code = 0 := by
  refine ⟨?_, rfl, rfl⟩
  show countTokensForMessages tok msgs = claimTokenFormula tok msgs
  rw [countTokensForMessages, claimTokenFormula,
      token_fold_messages tok msgs 0 hname]
  omega

/-- Witness for the amended C9 theorem at a concrete message list with a
name field. -/
theorem createInitialLog_token_formula_witness :
    (createInitialLog String.length "gpt-3.5-turbo" false
        [[("role", .pystr "user"), ("content", .pystr "hi"),
          ("name", .pystr "bob")]]).input_tokens
      = claimTokenFormula String.length
          [[("role", .pystr "user"), ("content", .pystr "hi"),
            ("name", .pystr "bob")]] ∧
    (createInitialLog String.length "gpt-3.5-turbo" false
        [[("role", .pystr "user"), ("content", .pystr "hi"),
          ("name", .pystr "bob")]]).status = "processing" :=
  ⟨(createInitialLog_token_formula String.length "gpt-3.5-turbo" false
      [[("role", .pystr "user"), ("content", .pystr "hi"),
        ("name", .pystr "bob")]] (by decide)).1,
   (createInitialLog_token_formula String.length "gpt-3.5-turbo" false
      [[("role", .pystr "user"), ("content", .pystr "hi"),
        ("name", .pystr "bob")]] (by decide)).2.1⟩

/-- Claim C4, counterexample: no Log row is ever inserted before
dispatch (`_create_initial_log` only constructs the object), and on the
non-streaming path an upstream transport error propagates out of
`process_request` before `_finalize_log` runs: the handler ends with no
Log row at all — not exactly one terminal row, and the `processing` row
the claim says was created never reached the database. -/
theorem log_row_lifecycle_claim_fails :
    processNonStream String.length []
        ⟨1, "AIza-k", 0, 0, 0, 0, 0, "active", none, true⟩ "gpt-4"
        [[("role", .pystr "user")]] .transportErr
      = ([], ⟨1, "AIza-k", 0, 0, 0, 0, 0, "active", none, true⟩) ∧
    (createInitialLog String.length "gpt-4" false
        [[("role", .pystr "user")]]).status = "processing" := by
  constructor
  · rfl
  · rfl

/-- Claim C4, amended: the Log object is constructed in memory with
status `processing` but only written to the database at finalize time.
When the upstream call returns (any status), the non-streaming path
appends exactly one row, whose status is terminal — `ok` iff the status
code is 2xx, `error` otherwise; the streaming path finalizes exactly
once in its `finally:` block with a terminal status for every consumed
prefix of the chunk stream (normal end or client disconnect); and a
transport error on the non-streaming path skips finalize entirely,
leaving the database unchanged. -/
theorem log_row_lifecycle_amended (tok : String → Nat) (db : List LogEntry)
    (key : OKey) (model : String) (preMsgs : List (List (String × PyVal)))
    (status : Int) (content : String) (chunks : List StreamChunk)
    (consumed : Nat) :
    (∃ entry : LogEntry,
      processNonStream tok db key model preMsgs (.response status content)
        = (db ++ [entry],
           finalizeKeyUpdate key status (countTokensForMessages tok preMsgs)
             (tok content)) ∧
      entry.status_code = status ∧
      (entry.status = "ok" ↔ (200 ≤ status ∧ status < 300)) ∧
      (entry.status = "ok" ∨ entry.status = "error") ∧
      entry.input_tokens = countTokensForMessages tok preMsgs) ∧
    processNonStream tok db key model preMsgs .transportErr = (db, key) ∧
    (∃ (entry : LogEntry) (key' : OKey),
      streamRun tok db key model preMsgs chunks consumed
        = (db ++ [entry], entry, key') ∧
      (entry.status = "ok" ∨ entry.status = "error")) := by
  refine ⟨⟨{ createInitialLog tok model false preMsgs with
              status_code := status,
              status := if 200 ≤ status ∧ status < 300 then "ok" else "error",
              output_tokens := tok content }, rfl, rfl, ?_, ?_, rfl⟩,
          rfl, ?_⟩
  · by_cases h2 : 200 ≤ status ∧ status < 300 <;> simp [h2]
  · by_cases h2 : 200 ≤ status ∧ status < 300 <;> simp [h2]
  · refine ⟨_, _, rfl, ?_⟩
    simp only [streamRun, finalizeLog]
    split <;> simp


/-- Claim C8, counterexample: the two conversion sites disagree with the
claimed table.  `universal_proxy` maps `gpt-3.5-turbo` to
`models/gemini-1.0-pro`, not the claimed `gemini-1.5-flash`;
`_handle_conversion` lets its (case-insensitive) gemini containment
check take precedence, so `gpt-3.5-gemini` passes through instead of
mapping to `gemini-1.5-flash`; and `universal_proxy` selects
`:streamGenerateContent` for a path containing `stream` even when the
request's stream flag is false. -/
theorem gemini_model_mapping_claim_fails :
    universalProxyGeminiPath (some "gpt-3.5-turbo") false "chat/completions"
      = "models/gemini-1.0-pro:generateContent" ∧
    claimC8Model "gpt-3.5-turbo" = "gemini-1.5-flash" ∧
    (handleConversionGemini "gpt-3.5-gemini" none false).1
      = "models/gpt-3.5-gemini" ∧
    claimC8Model "gpt-3.5-gemini" = "gemini-1.5-flash" ∧
    universalProxyGeminiPath (some "models/gemini-1.5-flash") false
        "models/gemini-1.5-flash:streamGenerateContent"
      = "models/gemini-1.5-flash:streamGenerateContent" := by
  refine ⟨rfl, rfl, rfl, rfl, rfl⟩

/-- Claim C8, amended: in `_handle_conversion` the case-insensitive
gemini containment check takes precedence (such models pass through,
gaining a `models/` prefix when missing), then `gpt-3.5` →
`gemini-1.5-flash`, `gpt-4` → `gemini-1.5-pro`, anything else →
`gemini-1.5-pro`, and the action follows the body's stream flag alone;
in `universal_proxy` a `models/`-prefixed model passes through, a model
containing `gemini` gains the prefix, and otherwise `gpt-4` is checked
first (→ `gemini-1.5-pro`), then `gpt-3.5` (→ `gemini-1.0-pro`), else
`gemini-1.5-pro`, with the streaming action also selected when the path
contains `stream`. -/
theorem gemini_model_mapping_characterization :
    (∀ (raw : String) (conv : Option String) (stream : Bool),
      (strContains (pyLower (effectiveGeminiModel raw conv)) "gemini" = true →
        (handleConversionGemini raw conv stream).1
          = (if pyStartsWith (effectiveGeminiModel raw conv) "models/"
             then effectiveGeminiModel raw conv
             else "models/" ++ effectiveGeminiModel raw conv)) ∧
      (strContains (pyLower (effectiveGeminiModel raw conv)) "gemini" = false →
        strContains (effectiveGeminiModel raw conv) "gpt-3.5" = true →
        (handleConversionGemini raw conv stream).1
          = "models/gemini-1.5-flash") ∧
      (strContains (pyLower (effectiveGeminiModel raw conv)) "gemini" = false →
        strContains (effectiveGeminiModel raw conv) "gpt-3.5" = false →
        strContains (effectiveGeminiModel raw conv) "gpt-4" = true →
        (handleConversionGemini raw conv stream).1 = "models/gemini-1.5-pro") ∧
      (strContains (pyLower (effectiveGeminiModel raw conv)) "gemini" = false →
        strContains (effectiveGeminiModel raw conv) "gpt-3.5" = false →
        strContains (effectiveGeminiModel raw conv) "gpt-4" = false →
        (handleConversionGemini raw conv stream).1 = "models/gemini-1.5-pro") ∧
      (handleConversionGemini raw conv stream).2
        = (if stream then "streamGenerateContent" else "generateContent")) ∧
    (∀ (bm : Option String) (stream : Bool) (path : String),
      (pyStartsWith (bm.getD "gemini-1.5-pro") "models/" = true →
        universalProxyGeminiPath bm stream path
          = bm.getD "gemini-1.5-pro" ++ ":" ++ universalAction stream path) ∧
      (pyStartsWith (bm.getD "gemini-1.5-pro") "models/" = false →
        strContains (bm.getD "gemini-1.5-pro") "gemini" = true →
        universalProxyGeminiPath bm stream path
          = "models/" ++ bm.getD "gemini-1.5-pro" ++ ":"
              ++ universalAction stream path) ∧
      (pyStartsWith (bm.getD "gemini-1.5-pro") "models/" = false →
        strContains (bm.getD "gemini-1.5-pro") "gemini" = false →
        strContains (bm.getD "gemini-1.5-pro") "gpt-4" = true →
        universalProxyGeminiPath bm stream path
          = "models/gemini-1.5-pro:" ++ universalAction stream path) ∧
      (pyStartsWith (bm.getD "gemini-1.5-pro") "models/" = false →
        strContains (bm.getD "gemini-1.5-pro") "gemini" = false →
        strContains (bm.getD "gemini-1.5-pro") "gpt-4" = false →
        strContains (bm.getD "gemini-1.5-pro") "gpt-3.5" = true →
        universalProxyGeminiPath bm stream path
          = "models/gemini-1.0-pro:" ++ universalAction stream path) ∧
      (pyStartsWith (bm.getD "gemini-1.5-pro") "models/" = false →
        strContains (bm.getD "gemini-1.5-pro") "gemini" = false →
        strContains (bm.getD "gemini-1.5-pro") "gpt-4" = false →
        strContains (bm.getD "gemini-1.5-pro") "gpt-3.5" = false →
        universalProxyGeminiPath bm stream path
          = "models/gemini-1.5-pro:" ++ universalAction stream path)) := by
  constructor
  · intro raw conv stream
    refine ⟨?_, ?_, ?_, ?_, ?_⟩
    · intro hg
      simp [handleConversionGemini, hg]
      by_cases hm : pyStartsWith (effectiveGeminiModel raw conv) "models/" = true <;>
        simp [hm]
    · intro hg h35
      simp [handleConversionGemini, hg, h35]
      decide
    · intro hg h35 h4
      simp [handleConversionGemini, hg, h35, h4]
      decide
    · intro hg h35 h4
      simp [handleConversionGemini, hg, h35, h4]
      decide
    · simp [handleConversionGemini]
  · intro bm stream path
    refine ⟨?_, ?_, ?_, ?_, ?_⟩
    · intro hp
      simp [universalProxyGeminiPath, universalAction, hp]
    · intro hp hg
      simp [universalProxyGeminiPath, universalAction, hp, hg]
    · intro hp hg h4
      simp [universalProxyGeminiPath, universalAction, hp, hg, h4]
    · intro hp hg h4 h35
      simp [universalProxyGeminiPath, universalAction, hp, hg, h4, h35]
    · intro hp hg h4 h35
      simp [universalProxyGeminiPath, universalAction, hp, hg, h4, h35]

/-- Witness for the amended C8 theorem: `gpt-3.5-turbo` through
`_handle_conversion` maps to the flash model, and through
`universal_proxy` to `gemini-1.0-pro`. -/
theorem gemini_model_mapping_witness :
    (handleConversionGemini "gpt-3.5-turbo" none false).1
      = "models/gemini-1.5-flash" ∧
    universalProxyGeminiPath (some "gpt-3.5-turbo") true "chat/completions"
      = "models/gemini-1.0-pro:" ++ universalAction true "chat/completions" :=
  ⟨((gemini_model_mapping_characterization.1 "gpt-3.5-turbo" none false).2.1
      (by rfl) (by rfl)),
   ((gemini_model_mapping_characterization.2 (some "gpt-3.5-turbo") true
      "chat/completions").2.2.2.1
      (by rfl) (by rfl) (by rfl) (by rfl))⟩


theorem align_mod (m : Nat) (hm : 0 < m) (base b : Nat) (hb : b < m) :
    ∃ u, base ≤ u ∧ u < base + m ∧ u % m = b := by
  refine ⟨base + ((b + m - base % m) % m), Nat.le_add_right _ _, ?_, ?_⟩
  · have := Nat.mod_lt (b + m - base % m) hm
    omega
  · have h3 := Nat.mod_lt base hm
    have h4 := Nat.div_add_mod base m
    have h2 : base + (b + m - base % m) = m * (base / m) + (b + m) := by omega
    rw [Nat.add_mod_mod, h2, Nat.mul_add_mod, Nat.add_mod_right]
    exact Nat.mod_eq_of_lt hb

theorem activeAt_add_len (keys : List OKey) (q : Nat) :
    activeAt keys (q + keys.length) = activeAt keys q := by
  simp [activeAt, Nat.add_mod_right]

theorem length_pos_of_activeCount (keys : List OKey)
    (hk : 0 < activeCount keys) : 0 < keys.length := by
  have := List.length_filter_le (fun k => k.is_active) keys
  rw [activeCount] at hk
  omega

theorem exists_active_index (keys : List OKey) (hk : 0 < activeCount keys) :
    ∃ i, i < keys.length ∧ (keys.getD i default).is_active = true := by
  rw [activeCount] at hk
  have hne : keys.filter (fun k => k.is_active) ≠ [] := by
    intro h
    rw [h] at hk
    simp at hk
  obtain ⟨k, hkmem⟩ := List.exists_mem_of_ne_nil _ hne
  have hmf := List.mem_filter.mp hkmem
  obtain ⟨i, hi, hig⟩ := List.mem_iff_getElem.mp hmf.1
  refine ⟨i, hi, ?_⟩
  rw [List.getD_eq_getElem _ _ hi, hig]
  simpa using hmf.2

theorem exists_hit_in_window (keys : List OKey) (hk : 0 < activeCount keys)
    (p : Nat) :
    ∃ q, p < q ∧ q ≤ p + keys.length ∧ activeAt keys q = true := by
  obtain ⟨i, hi, hia⟩ := exists_active_index keys hk
  have hm := length_pos_of_activeCount keys hk
  obtain ⟨u, hu1, hu2, hu3⟩ := align_mod keys.length hm (p + 1) i hi
  refine ⟨u, by omega, by omega, ?_⟩
  rw [activeAt, hu3]
  exact hia

theorem firstHit_spec (keys : List OKey) :
    ∀ (fuel p q : Nat), firstHit keys p fuel = some q →
      p < q ∧ q ≤ p + fuel ∧ activeAt keys q = true ∧
      ∀ r, p < r → r < q → activeAt keys r = false
  | 0, p, q, h => by simp [firstHit] at h
  | fuel + 1, p, q, h => by
    rw [firstHit] at h
    by_cases ha : activeAt keys (p + 1) = true
    · rw [if_pos ha] at h
      obtain rfl : p + 1 = q := by simpa using h
      exact ⟨by omega, by omega, ha, fun r h1 h2 => by omega⟩
    · rw [if_neg ha] at h
      obtain ⟨h1, h2, h3, h4⟩ := firstHit_spec keys fuel (p + 1) q h
      refine ⟨by omega, by omega, h3, fun r hr1 hr2 => ?_⟩
      by_cases hr : r = p + 1
      · rw [hr]
        exact Bool.not_eq_true _ |>.mp ha
      · exact h4 r (by omega) hr2

theorem firstHit_isSome (keys : List OKey) :
    ∀ (fuel p : Nat),
      (∃ q, p < q ∧ q ≤ p + fuel ∧ activeAt keys q = true) →
      (firstHit keys p fuel).isSome = true
  | 0, p, h => by
    obtain ⟨q, h1, h2, _⟩ := h
    omega
  | fuel + 1, p, h => by
    rw [firstHit]
    by_cases ha : activeAt keys (p + 1) = true
    · rw [if_pos ha]
      rfl
    · rw [if_neg ha]
      obtain ⟨q, h1, h2, h3⟩ := h
      have hq : q ≠ p + 1 := by
        intro he
        rw [he] at h3
        exact ha h3
      exact firstHit_isSome keys fuel (p + 1) ⟨q, by omega, by omega, h3⟩

theorem nextPos_spec (keys : List OKey) (hk : 0 < activeCount keys) (p : Nat) :
    p < nextPos keys p ∧ nextPos keys p ≤ p + keys.length ∧
    activeAt keys (nextPos keys p) = true ∧
    ∀ r, p < r → r < nextPos keys p → activeAt keys r = false := by
  have hex := exists_hit_in_window keys hk p
  have hsome := firstHit_isSome keys keys.length p hex
  obtain ⟨q, hq⟩ := Option.isSome_iff_exists.mp hsome
  rw [nextPos, hq, Option.getD_some]
  exact firstHit_spec keys keys.length p q hq

theorem nextPos_eq_of (keys : List OKey) (hk : 0 < activeCount keys)
    (p q : Nat) (hpq : p < q) (hact : activeAt keys q = true)
    (hmin : ∀ r, p < r → r < q → activeAt keys r = false) :
    nextPos keys p = q := by
  obtain ⟨h1, _, h3, h4⟩ := nextPos_spec keys hk p
  rcases Nat.lt_trichotomy (nextPos keys p) q with h | h | h
  · have := hmin _ h1 h
    rw [this] at h3
    cases h3
  · exact h
  · have := h4 q hpq h
    rw [this] at hact
    cases hact

theorem nextPos_add_len (keys : List OKey) (hk : 0 < activeCount keys)
    (p : Nat) :
    nextPos keys (p + keys.length) = nextPos keys p + keys.length := by
  obtain ⟨h1, h2, h3, h4⟩ := nextPos_spec keys hk p
  apply nextPos_eq_of keys hk _ _ (by omega)
  · rw [activeAt_add_len]
    exact h3
  · intro r hr1 hr2
    have hrm : r - keys.length + keys.length = r := by omega
    rw [← hrm, activeAt_add_len]
    exact h4 _ (by omega) (by omega)

theorem nextPos_add_mul_len (keys : List OKey) (hk : 0 < activeCount keys)
    (p : Nat) :
    ∀ t, nextPos keys (p + t * keys.length)
      = nextPos keys p + t * keys.length
  | 0 => by simp
  | t + 1 => by
    have := nextPos_add_mul_len keys hk p t
    calc nextPos keys (p + (t + 1) * keys.length)
        = nextPos keys (p + t * keys.length + keys.length) := by
          ring_nf
      _ = nextPos keys (p + t * keys.length) + keys.length :=
          nextPos_add_len keys hk _
      _ = nextPos keys p + (t + 1) * keys.length := by
          rw [this]
          ring

theorem nextPos_succ_active (keys : List OKey) (hk : 0 < activeCount keys)
    (p : Nat) (ha : activeAt keys (p + 1) = true) :
    nextPos keys p = p + 1 :=
  nextPos_eq_of keys hk p (p + 1) (by omega) ha (fun r h1 h2 => by omega)

theorem nextPos_succ_inactive (keys : List OKey) (hk : 0 < activeCount keys)
    (p : Nat) (ha : activeAt keys (p + 1) = false) :
    nextPos keys p = nextPos keys (p + 1) := by
  obtain ⟨h1, h2, h3, h4⟩ := nextPos_spec keys hk (p + 1)
  apply nextPos_eq_of keys hk p _ (by omega) h3
  intro r hr1 hr2
  by_cases hr : r = p + 1
  · rw [hr]
    exact ha
  · exact h4 r (by omega) hr2


theorem findIdx?_go_bound {α : Type} (p : α → Bool) :
    ∀ (l : List α) (s i : Nat), List.findIdx? p l s = some i →
      s ≤ i ∧ i - s < l.length
  | [], s, i, h => by simp [List.findIdx?] at h
  | x :: xs, s, i, h => by
    rw [List.findIdx?_cons] at h
    by_cases hx : p x = true
    · rw [if_pos hx] at h
      obtain rfl : s = i := by simpa using h
      simp
    · rw [if_neg hx] at h
      obtain ⟨h1, h2⟩ := findIdx?_go_bound p xs (s + 1) i h
      constructor
      · omega
      · simp only [List.length_cons]
        omega

theorem findIdx?_go_of_unique {α : Type} (p : α → Bool) :
    ∀ (l : List α) (s i : Nat) (hi : i < l.length),
      p (l.get ⟨i, hi⟩) = true →
      (∀ j (hj : j < l.length), p (l.get ⟨j, hj⟩) = true → j = i) →
      List.findIdx? p l s = some (s + i)
  | [], s, i, hi, _, _ => by simp at hi
  | x :: xs, s, i, hi, hp, hu => by
    rw [List.findIdx?_cons]
    by_cases hx : p x = true
    · have h0 : (0 : Nat) = i := hu 0 (by simp) (by simpa using hx)
      rw [if_pos hx, ← h0]
      simp
    · rw [if_neg hx]
      have hi0 : i ≠ 0 := by
        intro he
        subst he
        simp only [List.get] at hp
        exact hx hp
      obtain ⟨j, rfl⟩ : ∃ j, i = j + 1 := ⟨i - 1, by omega⟩
      have hj : j < xs.length := by
        simp only [List.length_cons] at hi
        omega
      have hres := findIdx?_go_of_unique p xs (s + 1) j hj (by simpa using hp)
        (fun j2 hj2 hp2 => by
          have := hu (j2 + 1) (by simp only [List.length_cons]; omega)
            (by simpa using hp2)
          omega)
      rw [hres]
      congr 1
      omega

theorem getD_default_irrel {α : Type} [Inhabited α] (l : List α) (j : Nat)
    (hj : j < l.length) (d1 d2 : α) : l.getD j d1 = l.getD j d2 := by
  rw [List.getD_eq_getElem _ _ hj, List.getD_eq_getElem _ _ hj]

theorem getNextKey_eq (keys : List OKey) (hm : 0 < keys.length)
    (cursor : Option Nat) :
    getNextKey keys cursor
      = some (keys.getD ((cursorIndex keys cursor + 1) % keys.length) default,
              (keys.getD ((cursorIndex keys cursor + 1) % keys.length) default).id) := by
  obtain ⟨k0, rest, rfl⟩ : ∃ k0 rest, keys = k0 :: rest := by
    cases keys with
    | nil => simp at hm
    | cons a l => exact ⟨a, l, rfl⟩
  have hwrap : ((k0 :: rest).length - 1 + 1) % (k0 :: rest).length = 0 := by
    simp [Nat.mod_self]
  cases cursor with
  | none =>
    simp only [getNextKey, cursorIndex, hwrap]
    rfl
  | some c =>
    by_cases hc : c = 0
    · subst hc
      simp [getNextKey, cursorIndex, hwrap]
    · cases hidx : (k0 :: rest).findIdx? (fun k => k.id == c) with
      | none =>
        simp [getNextKey, cursorIndex, hc, hidx, hwrap]
      | some i =>
        simp only [getNextKey, cursorIndex, if_neg hc, hidx]
        rw [getD_default_irrel _ _ (Nat.mod_lt _ hm) k0 default]

theorem cursorIndex_lt (keys : List OKey) (hm : 0 < keys.length)
    (cursor : Option Nat) : cursorIndex keys cursor < keys.length := by
  cases cursor with
  | none =>
    rw [cursorIndex]
    omega
  | some c =>
    rw [cursorIndex]
    by_cases hc : c = 0
    · rw [if_pos hc]
      omega
    · rw [if_neg hc]
      cases hidx : keys.findIdx? (fun k => k.id == c) with
      | none =>
        show keys.length - 1 < keys.length
        omega
      | some i =>
        show i < keys.length
        have := findIdx?_go_bound _ keys 0 i hidx
        omega

theorem cursorIndex_of_id (keys : List OKey)
    (hnodup : (keys.map OKey.id).Nodup)
    (hzero : ∀ key ∈ keys, key.id ≠ 0) (j : Nat) (hj : j < keys.length) :
    cursorIndex keys (some ((keys.getD j default).id)) = j := by
  have hmem : keys.getD j default ∈ keys := by
    rw [List.getD_eq_getElem _ _ hj]
    exact List.getElem_mem hj
  have hid0 : (keys.getD j default).id ≠ 0 := hzero _ hmem
  rw [cursorIndex, if_neg hid0]
  have hfind : keys.findIdx? (fun k => k.id == (keys.getD j default).id)
      = some (0 + j) := by
    have hl : ∀ j2, j2 < keys.length → j2 < (keys.map OKey.id).length := by
      intro j2 hj2
      simpa using hj2
    apply findIdx?_go_of_unique _ keys 0 j hj
    · rw [List.get_eq_getElem, ← List.getD_eq_getElem keys default hj]
      exact beq_self_eq_true _
    · intro j2 hj2 hp2
      rw [List.get_eq_getElem] at hp2
      have heq : keys[j2].id = (keys.getD j default).id := by simpa using hp2
      rw [List.getD_eq_getElem _ _ hj] at heq
      have hmapn : (keys.map OKey.id).get ⟨j2, hl j2 hj2⟩
          = (keys.map OKey.id).get ⟨j, hl j hj⟩ := by
        rw [List.get_eq_getElem, List.get_eq_getElem, List.getElem_map,
            List.getElem_map]
        exact heq
      have := (List.Nodup.get_inj_iff hnodup).mp hmapn
      simpa using this
  rw [hfind]
  show 0 + j = j
  omega


theorem getActiveKeyLoop_sel (keys : List OKey)
    (hnodup : (keys.map OKey.id).Nodup)
    (hzero : ∀ key ∈ keys, key.id ≠ 0)
    (hk : 0 < activeCount keys) :
    ∀ (f : Nat) (cursor : Option Nat),
      nextPos keys (cursorIndex keys cursor) ≤ cursorIndex keys cursor + f →
      getActiveKeyLoop keys f cursor
        = .ok (keys.getD
                 (nextPos keys (cursorIndex keys cursor) % keys.length) default,
               (keys.getD
                 (nextPos keys (cursorIndex keys cursor) % keys.length)
                 default).id)
  | 0, cursor, hfuel => by
    have := (nextPos_spec keys hk (cursorIndex keys cursor)).1
    omega
  | f + 1, cursor, hfuel => by
    have hm := length_pos_of_activeCount keys hk
    have hci := cursorIndex_lt keys hm cursor
    simp only [getActiveKeyLoop, getNextKey_eq keys hm cursor]
    have hcand : (keys.getD ((cursorIndex keys cursor + 1) % keys.length)
        default).is_active = activeAt keys (cursorIndex keys cursor + 1) := by
      rw [activeAt]
    by_cases hact : activeAt keys (cursorIndex keys cursor + 1) = true
    · rw [hcand, if_pos hact]
      have hnp := nextPos_succ_active keys hk _ hact
      rw [hnp]
    · rw [hcand, if_neg hact]
      have hactf : activeAt keys (cursorIndex keys cursor + 1) = false := by
        simpa using hact
      have hnp := nextPos_succ_inactive keys hk _ hactf
      have hj : (cursorIndex keys cursor + 1) % keys.length < keys.length :=
        Nat.mod_lt _ hm
      have hcur2 := cursorIndex_of_id keys hnodup hzero _ hj
      have hsplit := Nat.mod_add_div' (cursorIndex keys cursor + 1) keys.length
      have hshift := nextPos_add_mul_len keys hk
        ((cursorIndex keys cursor + 1) % keys.length)
        ((cursorIndex keys cursor + 1) / keys.length)
      have hnp2 : nextPos keys (cursorIndex keys cursor + 1)
          = nextPos keys ((cursorIndex keys cursor + 1) % keys.length)
            + ((cursorIndex keys cursor + 1) / keys.length) * keys.length := by
        conv_lhs => rw [← hsplit]
        exact hshift
      have hres := getActiveKeyLoop_sel keys hnodup hzero hk f
        (some ((keys.getD ((cursorIndex keys cursor + 1) % keys.length)
          default).id))
        (by rw [hcur2]; omega)
      rw [hres, hcur2]
      have hmod : nextPos keys (cursorIndex keys cursor) % keys.length
          = nextPos keys ((cursorIndex keys cursor + 1) % keys.length)
            % keys.length := by
        rw [hnp, hnp2, Nat.add_mul_mod_self_right]
      rw [hmod]

theorem getActiveKey_sel (keys : List OKey)
    (hnodup : (keys.map OKey.id).Nodup)
    (hzero : ∀ key ∈ keys, key.id ≠ 0)
    (hk : 0 < activeCount keys) (cursor : Option Nat) :
    getActiveKey keys cursor
      = .ok (keys.getD
               (nextPos keys (cursorIndex keys cursor) % keys.length) default,
             (keys.getD
               (nextPos keys (cursorIndex keys cursor) % keys.length)
               default).id) := by
  have hm := length_pos_of_activeCount keys hk
  have hne : keys.isEmpty = false := by
    cases keys with
    | nil => simp at hm
    | cons a l => rfl
  rw [getActiveKey, hne]
  show getActiveKeyLoop keys keys.length cursor = _
  apply getActiveKeyLoop_sel keys hnodup hzero hk
  exact (nextPos_spec keys hk (cursorIndex keys cursor)).2.1


theorem mod_inj_on_window (m a b : Nat) (hm : 0 < m) (hab : a ≤ b)
    (hwin : b < a + m) (hmod : a % m = b % m) : a = b := by
  have hdvd : m ∣ b - a := (Nat.modEq_iff_dvd' hab).mp hmod
  have := Nat.eq_zero_of_dvd_of_lt hdvd
  omega

theorem hit_count_step (keys : List OKey) (hk : 0 < activeCount keys)
    (p x : Nat) (hpx : p ≤ x) :
    ((Finset.Ioc p (nextPos keys x)).filter
        (fun q => activeAt keys q = true)).card
      = ((Finset.Ioc p x).filter (fun q => activeAt keys q = true)).card
        + 1 := by
  obtain ⟨h1, h2, h3, h4⟩ := nextPos_spec keys hk x
  have hun : Finset.Ioc p x ∪ Finset.Ioc x (nextPos keys x)
      = Finset.Ioc p (nextPos keys x) :=
    Finset.Ioc_union_Ioc_eq_Ioc hpx (by omega)
  have hsingle : (Finset.Ioc x (nextPos keys x)).filter
      (fun q => activeAt keys q = true) = {nextPos keys x} := by
    ext q
    simp only [Finset.mem_filter, Finset.mem_Ioc, Finset.mem_singleton]
    constructor
    · rintro ⟨⟨hq1, hq2⟩, hq3⟩
      by_contra hne
      have := h4 q hq1 (by omega)
      rw [this] at hq3
      cases hq3
    · rintro rfl
      exact ⟨⟨h1, le_refl _⟩, h3⟩
  have hdisj : Disjoint
      ((Finset.Ioc p x).filter (fun q => activeAt keys q = true))
      ((Finset.Ioc x (nextPos keys x)).filter
        (fun q => activeAt keys q = true)) := by
    apply Finset.disjoint_left.mpr
    intro q hq1 hq2
    simp only [Finset.mem_filter, Finset.mem_Ioc] at hq1 hq2
    omega
  calc ((Finset.Ioc p (nextPos keys x)).filter
          (fun q => activeAt keys q = true)).card
      = (((Finset.Ioc p x).filter (fun q => activeAt keys q = true))
          ∪ ((Finset.Ioc x (nextPos keys x)).filter
              (fun q => activeAt keys q = true))).card := by
        rw [← Finset.filter_union, hun]
    _ = ((Finset.Ioc p x).filter (fun q => activeAt keys q = true)).card
          + ((Finset.Ioc x (nextPos keys x)).filter
              (fun q => activeAt keys q = true)).card :=
        Finset.card_union_of_disjoint hdisj
    _ = _ := by rw [hsingle, Finset.card_singleton]

theorem range_filter_getD (p : OKey → Bool) :
    ∀ (l : List OKey),
      ((Finset.range l.length).filter
        (fun j => p (l.getD j default) = true)).card
        = (l.filter p).length
  | [] => by simp
  | x :: xs => by
    rw [Finset.card_filter, List.length_cons, Finset.sum_range_succ']
    simp only [List.getD_cons_succ, List.getD_cons_zero]
    rw [← Finset.card_filter, range_filter_getD p xs, List.filter_cons]
    by_cases hx : p x = true <;> simp [hx]

theorem window_hit_count (keys : List OKey) (hk : 0 < activeCount keys)
    (p : Nat) :
    ((Finset.Ioc p (p + keys.length)).filter
        (fun q => activeAt keys q = true)).card = activeCount keys := by
  have hm := length_pos_of_activeCount keys hk
  have hbij :
      ((Finset.Ioc p (p + keys.length)).filter
        (fun q => activeAt keys q = true)).card
      = ((Finset.range keys.length).filter
          (fun j => (keys.getD j default).is_active = true)).card := by
    apply Finset.card_bij (fun q _ => q % keys.length)
    · intro q hq
      simp only [Finset.mem_filter, Finset.mem_Ioc] at hq
      simp only [Finset.mem_filter, Finset.mem_range]
      exact ⟨Nat.mod_lt _ hm, hq.2⟩
    · intro q1 hq1 q2 hq2 hmod
      simp only [Finset.mem_filter, Finset.mem_Ioc] at hq1 hq2
      rcases Nat.le_total q1 q2 with h | h
      · exact mod_inj_on_window keys.length q1 q2 hm h (by omega) hmod
      · exact (mod_inj_on_window keys.length q2 q1 hm h (by omega)
          hmod.symm).symm
    · intro j hj
      simp only [Finset.mem_filter, Finset.mem_range] at hj
      obtain ⟨u, hu1, hu2, hu3⟩ := align_mod keys.length hm (p + 1) j hj.1
      refine ⟨u, ?_, hu3⟩
      simp only [Finset.mem_filter, Finset.mem_Ioc]
      refine ⟨⟨by omega, by omega⟩, ?_⟩
      rw [activeAt, hu3]
      exact hj.2
  rw [hbij, range_filter_getD]
  rfl

theorem nextPosIter_add (keys : List OKey) (p0 : Nat) :
    ∀ (t u : Nat), nextPosIter keys p0 (t + u)
      = nextPosIter keys (nextPosIter keys p0 t) u
  | t, 0 => rfl
  | t, u + 1 => by
    show nextPos keys (nextPosIter keys p0 (t + u)) = _
    rw [nextPosIter_add keys p0 t u]
    rfl

theorem nextPosIter_le (keys : List OKey) (hk : 0 < activeCount keys)
    (p0 : Nat) : ∀ t, p0 ≤ nextPosIter keys p0 t
  | 0 => le_refl _
  | t + 1 => by
    have h1 := nextPosIter_le keys hk p0 t
    have h2 := (nextPos_spec keys hk (nextPosIter keys p0 t)).1
    show p0 ≤ nextPos keys (nextPosIter keys p0 t)
    omega

theorem cnt_nextPosIter (keys : List OKey) (hk : 0 < activeCount keys)
    (p : Nat) :
    ∀ t, ((Finset.Ioc p (nextPosIter keys p t)).filter
        (fun q => activeAt keys q = true)).card = t
  | 0 => by simp [nextPosIter]
  | t + 1 => by
    have hle := nextPosIter_le keys hk p t
    show ((Finset.Ioc p (nextPos keys (nextPosIter keys p t))).filter
        (fun q => activeAt keys q = true)).card = t + 1
    rw [hit_count_step keys hk p _ hle, cnt_nextPosIter keys hk p t]

theorem nextPosIter_active (keys : List OKey) (hk : 0 < activeCount keys)
    (p : Nat) (t : Nat) (ht : 1 ≤ t) :
    activeAt keys (nextPosIter keys p t) = true := by
  obtain ⟨u, rfl⟩ : ∃ u, t = u + 1 := ⟨t - 1, by omega⟩
  exact (nextPos_spec keys hk (nextPosIter keys p u)).2.2.1

theorem nextPosIter_cycle (keys : List OKey) (hk : 0 < activeCount keys)
    (p : Nat) (hp : activeAt keys p = true) :
    nextPosIter keys p (activeCount keys) = p + keys.length := by
  have hcnt := cnt_nextPosIter keys hk p (activeCount keys)
  have hwin := window_hit_count keys hk p
  have hle := nextPosIter_le keys hk p (activeCount keys)
  rcases Nat.lt_trichotomy (nextPosIter keys p (activeCount keys))
    (p + keys.length) with h | h | h
  · exfalso
    have hpm : activeAt keys (p + keys.length) = true := by
      rw [activeAt_add_len]
      exact hp
    have hss : ((Finset.Ioc p (nextPosIter keys p (activeCount keys))).filter
          (fun q => activeAt keys q = true))
        ⊂ ((Finset.Ioc p (p + keys.length)).filter
          (fun q => activeAt keys q = true)) := by
      rw [Finset.ssubset_iff_of_subset]
      · refine ⟨p + keys.length, ?_, ?_⟩
        · simp only [Finset.mem_filter, Finset.mem_Ioc]
          have hm := length_pos_of_activeCount keys hk
          exact ⟨⟨by omega, le_refl _⟩, hpm⟩
        · simp only [Finset.mem_filter, Finset.mem_Ioc]
          intro hcontra
          omega
      · apply Finset.filter_subset_filter
        apply Finset.Ioc_subset_Ioc_right
        omega
    have := Finset.card_lt_card hss
    omega
  · exact h
  · exfalso
    have hx : activeAt keys (nextPosIter keys p (activeCount keys)) = true :=
      nextPosIter_active keys hk p _ hk
    have hsub : ((Finset.Ioc p (p + keys.length)).filter
          (fun q => activeAt keys q = true))
        ⊆ ((Finset.Ioc p (nextPosIter keys p (activeCount keys))).filter
          (fun q => activeAt keys q = true)) := by
      apply Finset.filter_subset_filter
      apply Finset.Ioc_subset_Ioc_right
      omega
    have heqs := Finset.eq_of_subset_of_card_le hsub (by omega)
    have hxmem : nextPosIter keys p (activeCount keys)
        ∈ ((Finset.Ioc p (p + keys.length)).filter
            (fun q => activeAt keys q = true)) := by
      rw [heqs]
      simp only [Finset.mem_filter, Finset.mem_Ioc]
      have hlt := nextPosIter_le keys hk p (activeCount keys)
      refine ⟨⟨?_, le_refl _⟩, hx⟩
      have hm := length_pos_of_activeCount keys hk
      omega
    simp only [Finset.mem_filter, Finset.mem_Ioc] at hxmem
    omega


theorem hit_eq_iterate (keys : List OKey) (hk : 0 < activeCount keys)
    (p0 : Nat) :
    ∀ (j t h : Nat), activeAt keys h = true →
      nextPosIter keys p0 t ≤ h → h < nextPosIter keys p0 (t + j) →
      ∃ s, t ≤ s ∧ s < t + j ∧ nextPosIter keys p0 s = h
  | 0, t, h, _, hge, hlt => by
    rw [Nat.add_zero] at hlt
    omega
  | j + 1, t, h, hact, hge, hlt => by
    by_cases he : nextPosIter keys p0 t = h
    · exact ⟨t, le_refl _, by omega, he⟩
    · have hgt : nextPosIter keys p0 t < h := by omega
      have hmin := (nextPos_spec keys hk (nextPosIter keys p0 t)).2.2.2
      have hnext : nextPos keys (nextPosIter keys p0 t) ≤ h := by
        by_contra hc
        push_neg at hc
        have hf := hmin h hgt hc
        rw [hf] at hact
        cases hact
      have hnext2 : nextPosIter keys p0 (t + 1) ≤ h := hnext
      have hlt2 : h < nextPosIter keys p0 (t + 1 + j) := by
        have harr : t + (j + 1) = t + 1 + j := by omega
        rw [harr] at hlt
        exact hlt
      obtain ⟨s, hs1, hs2, hs3⟩ :=
        hit_eq_iterate keys hk p0 j (t + 1) h hact hnext2 hlt2
      exact ⟨s, by omega, by omega, hs3⟩

theorem iter_cycle_shift (keys : List OKey) (hk : 0 < activeCount keys)
    (p0 s : Nat) (hs : 1 ≤ s) :
    nextPosIter keys p0 (s + activeCount keys)
      = nextPosIter keys p0 s + keys.length := by
  rw [nextPosIter_add keys p0 s (activeCount keys)]
  exact nextPosIter_cycle keys hk _ (nextPosIter_active keys hk p0 s hs)

theorem iter_residue_periodic (keys : List OKey) (hk : 0 < activeCount keys)
    (p0 s : Nat) (hs : 1 ≤ s) :
    ∀ w, nextPosIter keys p0 (s + w * activeCount keys) % keys.length
      = nextPosIter keys p0 s % keys.length
  | 0 => by simp
  | w + 1 => by
    have h1 : s + (w + 1) * activeCount keys
        = s + w * activeCount keys + activeCount keys := by ring
    rw [h1, iter_cycle_shift keys hk p0 _ (by omega), Nat.add_mod_right]
    exact iter_residue_periodic keys hk p0 s hs w

theorem residue_hit (keys : List OKey) (hk : 0 < activeCount keys)
    (p0 ib : Nat) (hib : ib < keys.length)
    (hact : (keys.getD ib default).is_active = true) :
    ∃ s, 1 ≤ s ∧ s ≤ activeCount keys ∧
      nextPosIter keys p0 s % keys.length = ib := by
  have hm := length_pos_of_activeCount keys hk
  have hq1act : activeAt keys (nextPosIter keys p0 1) = true :=
    nextPosIter_active keys hk p0 1 (le_refl _)
  have hcyc := iter_cycle_shift keys hk p0 1 (le_refl _)
  obtain ⟨u, hu1, hu2, hu3⟩ :=
    align_mod keys.length hm (nextPosIter keys p0 1) ib hib
  have huact : activeAt keys u = true := by
    rw [activeAt, hu3]
    exact hact
  obtain ⟨s, hs1, hs2, hs3⟩ :=
    hit_eq_iterate keys hk p0 (activeCount keys) 1 u huact hu1
      (by rw [hcyc]; omega)
  refine ⟨s, hs1, by omega, ?_⟩
  rw [hs3]
  exact hu3

theorem nextPos_mod_mod (keys : List OKey) (hk : 0 < activeCount keys)
    (x : Nat) :
    nextPos keys (x % keys.length) % keys.length
      = nextPos keys x % keys.length := by
  have hsplit := Nat.mod_add_div' x keys.length
  have hshift := nextPos_add_mul_len keys hk (x % keys.length)
    (x / keys.length)
  conv_rhs => rw [← hsplit]
  rw [hshift, Nat.add_mul_mod_self_right]

theorem sel_invariant (keys : List OKey)
    (hnodup : (keys.map OKey.id).Nodup)
    (hzero : ∀ key ∈ keys, key.id ≠ 0)
    (hk : 0 < activeCount keys) (c0 : Option Nat) :
    ∀ t, selKeyN keys c0 t
        = some (keys.getD
            (nextPosIter keys (cursorIndex keys c0) (t + 1) % keys.length)
            default)
      ∧ cursorIndex keys (selStateN keys c0 (t + 1))
        = nextPosIter keys (cursorIndex keys c0) (t + 1) % keys.length
  | 0 => by
    have hm := length_pos_of_activeCount keys hk
    have hsel := getActiveKey_sel keys hnodup hzero hk c0
    have hstep : selStep keys c0
        = (some ((keys.getD
            (nextPos keys (cursorIndex keys c0) % keys.length) default).id),
           some (keys.getD
            (nextPos keys (cursorIndex keys c0) % keys.length) default)) := by
      rw [selStep, hsel]
    constructor
    · show (selStep keys (selStateN keys c0 0)).2 = _
      show (selStep keys c0).2 = _
      rw [hstep]
      rfl
    · show cursorIndex keys (selStep keys (selStateN keys c0 0)).1 = _
      show cursorIndex keys (selStep keys c0).1 = _
      rw [hstep]
      exact cursorIndex_of_id keys hnodup hzero _ (Nat.mod_lt _ hm)
  | t + 1 => by
    have hm := length_pos_of_activeCount keys hk
    obtain ⟨_, hstate⟩ := sel_invariant keys hnodup hzero hk c0 t
    have hsel := getActiveKey_sel keys hnodup hzero hk (selStateN keys c0 (t + 1))
    rw [hstate] at hsel
    have hmod := nextPos_mod_mod keys hk
      (nextPosIter keys (cursorIndex keys c0) (t + 1))
    have hiter : nextPos keys (nextPosIter keys (cursorIndex keys c0) (t + 1))
        = nextPosIter keys (cursorIndex keys c0) (t + 2) := rfl
    rw [hiter] at hmod
    have hstep : selStep keys (selStateN keys c0 (t + 1))
        = (some ((keys.getD
            (nextPosIter keys (cursorIndex keys c0) (t + 2) % keys.length)
            default).id),
           some (keys.getD
            (nextPosIter keys (cursorIndex keys c0) (t + 2) % keys.length)
            default)) := by
      rw [selStep, hsel, hmod]
    constructor
    · show (selStep keys (selStateN keys c0 (t + 1))).2 = _
      rw [hstep]
    · show cursorIndex keys (selStep keys (selStateN keys c0 (t + 1))).1 = _
      rw [hstep]
      exact cursorIndex_of_id keys hnodup hzero _ (Nat.mod_lt _ hm)


/-- Claim C3: selection within a channel is round-robin over the
channel's keys in id order with the cursor persisted in SystemConfig —
a stored cursor id found in the list yields the next key modulo the
pool size, an unknown (or absent, or zero) cursor yields the first
key — and consequently, over any n sequential successful selections on
a fixed pool with at least one active key and distinct nonzero ids,
every active key is selected at least ⌊n/k⌋ times, k being the number
of active keys. -/
theorem rotation_round_robin_fairness
    (keys : List OKey) (c0 : Option Nat)
    (hnodup : (keys.map OKey.id).Nodup)
    (hzero : ∀ key ∈ keys, key.id ≠ 0)
    (hk : 0 < activeCount keys)
    (b : OKey) (hb : b ∈ keys) (hbact : b.is_active = true)
    (n : Nat) (hn : activeCount keys ≤ n) :
    (∀ i, i < keys.length →
      getNextKey keys (some ((keys.getD i default).id))
        = some (keys.getD ((i + 1) % keys.length) default,
                (keys.getD ((i + 1) % keys.length) default).id)) ∧
    (∀ c, c ≠ 0 → (∀ key ∈ keys, key.id ≠ c) →
      getNextKey keys (some c)
        = some (keys.getD 0 default, (keys.getD 0 default).id)) ∧
    n / activeCount keys ≤ selCount keys c0 n b := by
  have hm := length_pos_of_activeCount keys hk
  refine ⟨?_, ?_, ?_⟩
  · intro i hi
    rw [getNextKey_eq keys hm, cursorIndex_of_id keys hnodup hzero i hi]
  · intro c hc0 hcnone
    have hfnone : keys.findIdx? (fun k => k.id == c) = none := by
      rw [List.findIdx?_eq_none_iff]
      intro x hx
      simpa using hcnone x hx
    have hci : cursorIndex keys (some c) = keys.length - 1 := by
      rw [cursorIndex, if_neg hc0, hfnone]
    have hwrap : (keys.length - 1 + 1) % keys.length = 0 := by
      have hlm : keys.length - 1 + 1 = keys.length := by omega
      rw [hlm, Nat.mod_self]
    rw [getNextKey_eq keys hm, hci, hwrap]
  · obtain ⟨ib, hib, hibeq⟩ := List.mem_iff_getElem.mp hb
    have hibd : keys.getD ib default = b := by
      rw [List.getD_eq_getElem _ _ hib, hibeq]
    have hbactD : (keys.getD ib default).is_active = true := by
      rw [hibd]
      exact hbact
    obtain ⟨s0, hs01, hs02, hs03⟩ :=
      residue_hit keys hk (cursorIndex keys c0) ib hib hbactD
    have hmaps : ∀ w ∈ Finset.range (n / activeCount keys),
        (s0 + w * activeCount keys - 1) ∈ (Finset.range n).filter
          (fun t => ((selKeyN keys c0 t).any
            (fun key => key.id == b.id)) = true) := by
      intro w hw
      rw [Finset.mem_range] at hw
      have ht1 : s0 + w * activeCount keys - 1 + 1
          = s0 + w * activeCount keys := by omega
      have hprod1 : (w + 1) * activeCount keys
          ≤ (n / activeCount keys) * activeCount keys :=
        Nat.mul_le_mul_right _ (by omega)
      have hprod2 : (n / activeCount keys) * activeCount keys ≤ n :=
        Nat.div_mul_le_self n (activeCount keys)
      have hprod3 : (w + 1) * activeCount keys
          = w * activeCount keys + activeCount keys := by ring
      rw [Finset.mem_filter, Finset.mem_range]
      constructor
      · omega
      · have hkey := (sel_invariant keys hnodup hzero hk c0
          (s0 + w * activeCount keys - 1)).1
        rw [ht1] at hkey
        have hres := iter_residue_periodic keys hk (cursorIndex keys c0)
          s0 hs01 w
        rw [hres, hs03, hibd] at hkey
        rw [hkey]
        simp
    have hinj : Set.InjOn (fun w => s0 + w * activeCount keys - 1)
        ↑(Finset.range (n / activeCount keys)) := by
      intro w1 _ w2 _ heq
      simp only at heq
      have heq2 : w1 * activeCount keys = w2 * activeCount keys := by omega
      exact Nat.eq_of_mul_eq_mul_right hk heq2
    have hcard := Finset.card_le_card_of_injOn
      (fun w => s0 + w * activeCount keys - 1) hmaps hinj
    rw [Finset.card_range] at hcard
    exact hcard

/-- Witness for the C3 theorem: two active keys, four selections from an
absent cursor; the fairness floor is ⌊4/2⌋ = 2. -/
theorem rotation_round_robin_fairness_witness :
    4 / activeCount
        [⟨1, "AIza-a", 0, 0, 0, 0, 0, "active", none, true⟩,
         ⟨2, "AIza-b", 0, 0, 0, 0, 0, "active", none, true⟩]
      ≤ selCount
          [⟨1, "AIza-a", 0, 0, 0, 0, 0, "active", none, true⟩,
           ⟨2, "AIza-b", 0, 0, 0, 0, 0, "active", none, true⟩]
          none 4 ⟨1, "AIza-a", 0, 0, 0, 0, 0, "active", none, true⟩ :=
  (rotation_round_robin_fairness
    [⟨1, "AIza-a", 0, 0, 0, 0, 0, "active", none, true⟩,
     ⟨2, "AIza-b", 0, 0, 0, 0, 0, "active", none, true⟩]
    none (by decide) (by decide) (by decide)
    ⟨1, "AIza-a", 0, 0, 0, 0, 0, "active", none, true⟩
    (by decide) (by decide) 4 (by decide)).2.2

end AnyApi
